import Mathlib

/-!
A shallow embedding of the response-normalization core of `proxy-server.js`
(the watsonx proxy server): the list-mode normalizer `normalizeToList` and the
resize step of `POST /generate`, the table-mode structured parse, header
fallback and row fallback of `POST /generateTable`, the response-envelope
extraction of both endpoints, and the API-key selection of `POST /token`.

String processing is modelled over `List Char`.  JavaScript's built-in
`JSON.parse` is modelled by an executable recursive-descent parser for the
JSON grammar (`parseVal`), and `JSON.stringify` of plain string arrays by
`serializeJsonArray`.  The regular-expression replacement passes of the
source are translated one by one into scanning functions with the same
match-and-replace semantics.  Unseeded randomness and wall-clock time in the
table-mode row fallback are modelled by an oracle structure `Gen` whose
fields stand for the source's `Math.random`/`Date.now`-based helpers.
-/

namespace ProxyServer

/-- The single-quote character, written via its code point. -/
def squote : Char := Char.ofNat 39

/-- The backslash character. -/
def bslash : Char := Char.ofNat 92

/-- JavaScript whitespace as relevant here (`\s` and `String.prototype.trim`):
space, tab, newline, carriage return, vertical tab, form feed. -/
def jsWsChar (c : Char) : Bool :=
  c = ' ' || c = '\t' || c = '\n' || c = '\r' || c = Char.ofNat 11 || c = Char.ofNat 12

/-- `String.prototype.trim` on a character list: drop whitespace from both ends. -/
def jsTrimL (cs : List Char) : List Char :=
  ((cs.dropWhile jsWsChar).reverse.dropWhile jsWsChar).reverse

/-- `String.prototype.trim`. -/
def jsTrim (s : String) : String := String.mk (jsTrimL s.data)

/-- ASCII lower-casing of one character (model of `String.prototype.toLowerCase`
for the ASCII inputs that occur here). -/
def jsLowerChar (c : Char) : Char :=
  if 65 ≤ c.toNat && c.toNat ≤ 90 then Char.ofNat (c.toNat + 32) else c

/-- `String.prototype.toLowerCase` (ASCII model). -/
def jsLower (s : String) : String := String.mk (s.data.map jsLowerChar)

/-- Does `pre` occur at the head of `cs`? -/
def startsWithL : List Char → List Char → Bool
  | _, [] => true
  | [], _ :: _ => false
  | c :: cs, p :: ps => c = p && startsWithL cs ps

/-- Does `needle` occur anywhere in `hay`?  Model of `String.prototype.includes`. -/
def containsSeq : List Char → List Char → Bool
  | hay, needle =>
    if startsWithL hay needle then true
    else match hay with
      | [] => false
      | _ :: rest => containsSeq rest needle

/-- `String.prototype.includes`. -/
def jsIncludes (s sub : String) : Bool := containsSeq s.data sub.data

/-- `String.prototype.includes` for a single character. -/
def jsContainsChar (s : String) (c : Char) : Bool := s.data.contains c

/-- `String.prototype.split` on a single separator character.  Splitting the
empty string yields one empty piece, as in JavaScript. -/
def splitOnChar (sep : Char) : List Char → List (List Char)
  | [] => [[]]
  | c :: cs =>
    let rest := splitOnChar sep cs
    if c = sep then [] :: rest
    else match rest with
      | [] => [[c]]
      | p :: ps => (c :: p) :: ps

/-- `s.replace(/^q|q$/g, '')` for a quote character `q`: remove one leading
and one trailing occurrence of `q` (a single `q` is removed once). -/
def stripEdge (q : Char) (cs : List Char) : List Char :=
  let cs1 := match cs with
    | c :: rest => if c = q then rest else cs
    | [] => cs
  match cs1.getLast? with
  | some c => if c = q then cs1.dropLast else cs1
  | none => cs1

/-- `String.prototype.endsWith` for a single character, on a character list. -/
def endsWithChar (c : Char) (cs : List Char) : Bool :=
  match cs.getLast? with
  | some d => d = c
  | none => false

/-- The character class of `/^[-*\d\.)\s]+/`: dash, asterisk, digit, dot,
closing parenthesis, whitespace. -/
def listMarkerChar (c : Char) : Bool :=
  c = '-' || c = '*' || (48 ≤ c.toNat && c.toNat ≤ 57) || c = '.' || c = ')' || jsWsChar c

/-! ## JSON values and a model of `JSON.parse`

JSON numbers are kept as their source lexeme: no claim below depends on
JavaScript's numeric re-formatting, and the lexeme keeps the model exact for
the string-array inputs the claims quantify over. -/

/-- A parsed JSON value. -/
inductive Json where
  | str : String → Json
  | num : String → Json
  | jbool : Bool → Json
  | jnull : Json
  | arr : List Json → Json
  | obj : List (String × Json) → Json

/-- JSON token whitespace (`ws` in the JSON grammar). -/
def jsonWsChar (c : Char) : Bool :=
  c = ' ' || c = '\t' || c = '\n' || c = '\r'

/-- Skip JSON whitespace. -/
def skipWs (cs : List Char) : List Char := cs.dropWhile jsonWsChar

/-- Is `c` an ASCII decimal digit? -/
def isDigitChar (c : Char) : Bool := 48 ≤ c.toNat && c.toNat ≤ 57

/-- Is `c` an ASCII hexadecimal digit? -/
def isHexChar (c : Char) : Bool :=
  isDigitChar c || (65 ≤ c.toNat && c.toNat ≤ 70) || (97 ≤ c.toNat && c.toNat ≤ 102)

/-- Value of an ASCII hexadecimal digit. -/
def hexVal (c : Char) : Nat :=
  if 97 ≤ c.toNat then c.toNat - 87 else if 65 ≤ c.toNat then c.toNat - 55 else c.toNat - 48

/-- The two-character JSON escapes following a backslash. -/
def escChar (c : Char) : Option Char :=
  if c = '"' then some '"'
  else if c = bslash then some bslash
  else if c = '/' then some '/'
  else if c = 'b' then some (Char.ofNat 8)
  else if c = 'f' then some (Char.ofNat 12)
  else if c = 'n' then some '\n'
  else if c = 'r' then some '\r'
  else if c = 't' then some '\t'
  else none

/-- Parse the body of a JSON string after the opening quote, handling escapes
and rejecting raw control characters; returns the content and the remainder
after the closing quote.  `fuel` is an upper bound on the steps, supplied as
input length plus one at call sites. -/
def parseStringBody : Nat → List Char → Option (List Char × List Char)
  | 0, _ => none
  | _ + 1, [] => none
  | fuel + 1, c :: cs =>
    if c = '"' then some ([], cs)
    else if c = bslash then
      match cs with
      | [] => none
      | e :: cs' =>
        if e = 'u' then
          match cs' with
          | a :: b :: c2 :: d :: cs'' =>
            if isHexChar a && isHexChar b && isHexChar c2 && isHexChar d then
              (parseStringBody fuel cs'').map fun p =>
                (Char.ofNat (hexVal a * 4096 + hexVal b * 256 + hexVal c2 * 16 + hexVal d) :: p.1, p.2)
            else none
          | _ => none
        else
          match escChar e with
          | some ch => (parseStringBody fuel cs').map fun p => (ch :: p.1, p.2)
          | none => none
    else if c.toNat < 32 then none
    else (parseStringBody fuel cs).map fun p => (c :: p.1, p.2)

/-- Parse a JSON number lexeme (`-?(0|[1-9][0-9]*)(\.[0-9]+)?([eE][+-]?[0-9]+)?`);
the lexeme is kept verbatim. -/
def parseNumberLex (cs : List Char) : Option (List Char × List Char) :=
  let (sign, cs1) := match cs with
    | '-' :: rest => (['-'], rest)
    | _ => (([] : List Char), cs)
  match cs1 with
  | [] => none
  | c :: _ =>
    if !isDigitChar c then none
    else
      let intPart := cs1.takeWhile isDigitChar
      let rest1 := cs1.dropWhile isDigitChar
      if c = '0' && intPart.length ≠ 1 then none
      else
        let (fracPart, rest2) := match rest1 with
          | '.' :: r =>
            let ds := r.takeWhile isDigitChar
            if ds.isEmpty then ([], rest1) else ('.' :: ds, r.dropWhile isDigitChar)
          | _ => (([] : List Char), rest1)
        if rest2 ≠ rest1 || fracPart.isEmpty then
          match rest2 with
          | e :: r3 =>
            if e = 'e' || e = 'E' then
              let (sgn, r4) := match r3 with
                | '+' :: r => (['+'], r)
                | '-' :: r => (['-'], r)
                | _ => (([] : List Char), r3)
              let ds := r4.takeWhile isDigitChar
              if ds.isEmpty then
                if fracPart.isEmpty && rest2 ≠ rest1 then none
                else some (sign ++ intPart ++ fracPart, rest2)
              else
                some (sign ++ intPart ++ fracPart ++ e :: sgn ++ ds, r4.dropWhile isDigitChar)
            else if fracPart.isEmpty && rest2 ≠ rest1 then none
            else some (sign ++ intPart ++ fracPart, rest2)
          | [] =>
            if fracPart.isEmpty && rest2 ≠ rest1 then none
            else some (sign ++ intPart ++ fracPart, rest2)
        else none

/-- Parse a JSON number, wrapping the lexeme. -/
def parseNumber (cs : List Char) : Option (Json × List Char) :=
  (parseNumberLex cs).map fun p => (Json.num (String.mk p.1), p.2)

/-- Parse the elements of a non-empty JSON array: `value (, value)* ]`.
The value parser is passed in, so that the recursion is structural on `fuel`. -/
def parseItemsWith (pv : List Char → Option (Json × List Char)) :
    Nat → List Char → Option (List Json × List Char)
  | 0, _ => none
  | fuel + 1, cs => do
    let (v, rest) ← pv cs
    match skipWs rest with
    | c :: r2 =>
      if c = ',' then do
        let (vs, r3) ← parseItemsWith pv fuel r2
        pure (v :: vs, r3)
      else if c = ']' then pure ([v], r2)
      else none
    | [] => none

/-- Parse the members of a non-empty JSON object: `"key" : value (, …)* }`. -/
def parseMembersWith (pv : List Char → Option (Json × List Char)) :
    Nat → List Char → Option (List (String × Json) × List Char)
  | 0, _ => none
  | fuel + 1, cs =>
    match skipWs cs with
    | '"' :: r => do
      let (key, r1) ← parseStringBody (r.length + 1) r
      match skipWs r1 with
      | ':' :: r2 => do
        let (v, r3) ← pv r2
        match skipWs r3 with
        | ',' :: r4 => do
          let (ms, r5) ← parseMembersWith pv fuel r4
          pure ((String.mk key, v) :: ms, r5)
        | '}' :: r4 => pure ([(String.mk key, v)], r4)
        | _ => none
      | _ => none
    | _ => none

/-- Parse one JSON value (after skipping leading whitespace); `fuel` bounds
the bracket-nesting and element recursion. -/
def parseVal : Nat → List Char → Option (Json × List Char)
  | 0, _ => none
  | fuel + 1, cs0 =>
    match skipWs cs0 with
    | [] => none
    | c :: cs =>
      if c = '"' then
        (parseStringBody (cs.length + 1) cs).map fun p => (Json.str (String.mk p.1), p.2)
      else if c = '[' then
        match skipWs cs with
        | [] => none
        | d :: r =>
          if d = ']' then some (Json.arr [], r)
          else (parseItemsWith (parseVal fuel) fuel (d :: r)).map fun p => (Json.arr p.1, p.2)
      else if c = '{' then
        match skipWs cs with
        | [] => none
        | d :: r =>
          if d = '}' then some (Json.obj [], r)
          else (parseMembersWith (parseVal fuel) fuel cs).map fun p => (Json.obj p.1, p.2)
      else if c = 't' then
        match cs with
        | 'r' :: 'u' :: 'e' :: r => some (Json.jbool true, r)
        | _ => none
      else if c = 'f' then
        match cs with
        | 'a' :: 'l' :: 's' :: 'e' :: r => some (Json.jbool false, r)
        | _ => none
      else if c = 'n' then
        match cs with
        | 'u' :: 'l' :: 'l' :: r => some (Json.jnull, r)
        | _ => none
      else parseNumber (c :: cs)

/-- Model of `JSON.parse`: parse one value and require only whitespace after it. -/
def jsonParse (s : String) : Option Json :=
  match parseVal (s.data.length + 1) s.data with
  | some (v, rest) => if (skipWs rest).isEmpty then some v else none
  | none => none

/-- Lookup of an object field; JavaScript's `JSON.parse` keeps the last
duplicate key, so the reversed list is searched first. -/
def objGet (members : List (String × Json)) (key : String) : Option Json :=
  (members.reverse.find? fun m => m.1 = key).map Prod.snd

/-- Is a JSON value the null literal? -/
def isNullJson : Json → Bool
  | .jnull => true
  | _ => false

/-- `String(x)` applied to an element of an array produced by `JSON.parse`
(recursion through arrays uses `Array.prototype.join(',')`, where `null`
becomes the empty string).  The fuel argument only bounds recursion through
nested arrays; it is irrelevant for scalar values, and call sites pass the
length of the text the value was parsed from, which bounds its depth. -/
def jsToStringF : Nat → Json → String
  | _, .str s => s
  | _, .num lx => lx
  | _, .jbool b => if b then "true" else "false"
  | _, .jnull => "null"
  | 0, .arr _ => ""
  | fuel + 1, .arr xs =>
    String.intercalate "," (xs.map fun x => if isNullJson x then "" else jsToStringF fuel x)
  | _, .obj _ => "[object Object]"

/-! ## Global regex replacement

`scanReplace m fuel cs` models `String.prototype.replace` with a global
regex: scan left to right; where the matcher `m` fires it yields the
replacement text and the remainder after the match, and scanning resumes
there; otherwise one character is emitted.  Every matcher below consumes at
least one character, so `fuel = cs.length` always suffices. -/

/-- One pass of global regex replacement. -/
def scanReplace (m : List Char → Option (List Char × List Char)) :
    Nat → List Char → List Char
  | 0, cs => cs
  | _ + 1, [] => []
  | fuel + 1, c :: cs =>
    match m (c :: cs) with
    | some (rep, rest) => rep ++ scanReplace m fuel rest
    | none => c :: scanReplace m fuel cs

/-! ## List-mode quote repair (`normalizeToList`, lines 66–69)

The source applies three replacements to turn a single-quoted bracket list
into JSON:
`/(^\s*\[\s*)'([^']*)'/g → '["$2"'`, `/,'([^']*)'/g → ',"$1"'`,
`/'([^']*)'\s*\]/g → '"$1"]'`. -/

/-- `/(^\s*\[\s*)'([^']*)'/ → '["$2"'`: anchored at the start, so at most one
match; the leading whitespace and the whitespace after `[` are dropped by the
replacement (the capture `$1` is not used in it). -/
def repairListStart (cs : List Char) : List Char :=
  match cs.dropWhile jsWsChar with
  | c :: r2 =>
    if c = '[' then
      match r2.dropWhile jsWsChar with
      | q :: r4 =>
        if q = squote then
          let content := r4.takeWhile fun x => x ≠ squote
          match r4.dropWhile (fun x => x ≠ squote) with
          | _ :: rest => '[' :: '"' :: content ++ '"' :: rest
          | [] => cs
        else cs
      | [] => cs
    else cs
  | [] => cs

/-- Matcher for `/,'([^']*)'/ → ',"$1"'`. -/
def matchMidQuote (cs : List Char) : Option (List Char × List Char) :=
  match cs with
  | c1 :: c2 :: rest =>
    if c1 = ',' && c2 = squote then
      let content := rest.takeWhile fun x => x ≠ squote
      match rest.dropWhile (fun x => x ≠ squote) with
      | _ :: rest' => some (',' :: '"' :: content ++ ['"'], rest')
      | [] => none
    else none
  | _ => none

/-- Matcher for `/'([^']*)'\s*\]/ → '"$1"]'`. -/
def matchEndQuote (cs : List Char) : Option (List Char × List Char) :=
  match cs with
  | c :: rest =>
    if c = squote then
      let content := rest.takeWhile fun x => x ≠ squote
      match rest.dropWhile (fun x => x ≠ squote) with
      | _ :: rest' =>
        match rest'.dropWhile jsWsChar with
        | ']' :: rest3 => some ('"' :: content ++ ['"', ']'], rest3)
        | _ => none
      | [] => none
    else none
  | _ => none

/-- The composed quote-repair pass of `normalizeToList` (lines 66–69). -/
def repairListQuotes (cs : List Char) : List Char :=
  let a := repairListStart cs
  let b := scanReplace matchMidQuote a.length a
  scanReplace matchEndQuote b.length b

/-! ## `normalizeToList` (lines 59–88) and the `/generate` resize step -/

/-- `normalizeToList(text)`: bracket-delimited text is quote-repaired and
parsed as a JSON array (success returns trimmed non-empty element strings);
otherwise single-line comma text is split as CSV; otherwise the text is split
into lines with list markers and one layer of quotes stripped.  A parse
failure, or a parse producing a non-array, falls through to the CSV/line
branches. -/
def normalizeToList (text : String) : List String :=
  if text = "" then []
  else
    let t := jsTrim text
    let tl := t.data
    let isBracketStart : Bool := startsWithL tl ['[']
    let isBracketEnd : Bool := endsWithChar ']' tl
    let bracketResult : Option (List String) :=
      if (isBracketStart && isBracketEnd) || (isBracketStart && tl.contains ']') then
        match jsonParse (String.mk (repairListQuotes tl)) with
        | some (Json.arr xs) =>
          some (((xs.map fun x => jsTrim (jsToStringF (text.data.length + 1) x)).filter
            fun s => !s.data.isEmpty))
        | _ => none
      else none
    match bracketResult with
    | some r => r
    | none =>
      if tl.contains ',' && !(tl.contains '\n') then
        ((((splitOnChar ',' tl).map fun p => jsTrimL p).map
          fun p => stripEdge squote (stripEdge '"' p)).filter fun p => !p.isEmpty).map String.mk
      else
        ((((splitOnChar '\n' tl).map fun p => jsTrimL (p.dropWhile listMarkerChar)).map
          fun p => stripEdge squote (stripEdge '"' p)).filter fun p => !p.isEmpty).map String.mk

/-- The padding loop of `/generate` (line 158): for `i` from `0` to
`needed - 1`, `list.push(list[i % Math.max(1, list.length)] || '')`, where
`list.length` is the length at the time of the push. -/
def padFrom : List String → Nat → Nat → List String
  | list, _, 0 => list
  | list, i, n + 1 =>
    padFrom (list ++ [(list[i % max 1 list.length]?).getD ""]) (i + 1) n

/-- The resize step of `/generate` (lines 155–160): pad by cycling if the
list is shorter than `count`, then truncate to `count`. -/
def resizeToCount (list : List String) (count : Nat) : List String :=
  let padded := if list.length < count then padFrom list 0 (count - list.length) else list
  padded.take count

/-- The `/generate` pipeline after text extraction: `normalizeToList`
followed by the resize step. -/
def generateList (text : String) (count : Nat) : List String :=
  resizeToCount (normalizeToList text) count

/-! ## `JSON.stringify` of an array of strings -/

/-- Hexadecimal digit character (upper case). -/
def hexDigitChar (n : Nat) : Char :=
  if n < 10 then Char.ofNat (48 + n) else Char.ofNat (55 + n)

/-- `JSON.stringify` escaping of one string character. -/
def jsEscapeChar (c : Char) : List Char :=
  if c = '"' then [bslash, '"']
  else if c = bslash then [bslash, bslash]
  else if c = '\n' then [bslash, 'n']
  else if c = '\r' then [bslash, 'r']
  else if c = '\t' then [bslash, 't']
  else if c = Char.ofNat 8 then [bslash, 'b']
  else if c = Char.ofNat 12 then [bslash, 'f']
  else if c.toNat < 32 then [bslash, 'u', '0', '0', hexDigitChar (c.toNat / 16), hexDigitChar (c.toNat % 16)]
  else [c]

/-- `JSON.stringify` of one string. -/
def jsonQuoteStr (s : String) : List Char := '"' :: (s.data.flatMap jsEscapeChar) ++ ['"']

/-- The comma-separated items of `JSON.stringify` of an array of strings. -/
def serItems : List String → List Char
  | [] => []
  | s :: rest => jsonQuoteStr s ++ (if rest.isEmpty then [] else [',']) ++ serItems rest

/-- `JSON.stringify` of an array of strings. -/
def serializeJsonArray (l : List String) : String :=
  String.mk ('[' :: (serItems l ++ [']']))

/-! ## Table-mode cleanup and repair (`/generateTable`, lines 276–297) -/

/-- The backtick character. -/
def btick : Char := Char.ofNat 96

/-- ASCII letter. -/
def isAsciiLetter (c : Char) : Bool :=
  (65 ≤ c.toNat && c.toNat ≤ 90) || (97 ≤ c.toNat && c.toNat ≤ 122)

/-- `.replace(/^` ``` `[a-zA-Z]*\n|` ``` `$/g, '')`: strip a leading code-fence
line and a trailing fence marker. -/
def stripFences (cs : List Char) : List Char :=
  let cs1 :=
    match cs with
    | a :: b :: c :: rest =>
      if a = btick && b = btick && c = btick then
        match rest.dropWhile isAsciiLetter with
        | '\n' :: r3 => r3
        | _ => cs
      else cs
    | _ => cs
  match cs1.reverse with
  | a :: b :: c :: restRev =>
    if a = btick && b = btick && c = btick then restRev.reverse else cs1
  | _ => cs1

/-- Character class `[a-zA-Z0-9_\s]` of the key-quoting regex. -/
def isKeyChar (c : Char) : Bool :=
  (48 ≤ c.toNat && c.toNat ≤ 57) || (65 ≤ c.toNat && c.toNat ≤ 90) ||
    (97 ≤ c.toNat && c.toNat ≤ 122) || c = '_' || jsWsChar c

/-- Matcher for `/"?([a-zA-Z0-9_\s]+)"?\s*:/ → '"$1":'` (quote unquoted
object keys).  The capture is the maximal run of key characters; the match
requires a colon after the run, optionally preceded by a closing quote and
whitespace. -/
def matchQuoteKey (cs : List Char) : Option (List Char × List Char) :=
  let cs1 := match cs with
    | '"' :: t => t
    | _ => cs
  let run := cs1.takeWhile isKeyChar
  if run.isEmpty then none
  else
    match cs1.dropWhile isKeyChar with
    | ':' :: rest => some ('"' :: run ++ ['"', ':'], rest)
    | '"' :: t =>
      match t.dropWhile jsWsChar with
      | ':' :: rest => some ('"' :: run ++ ['"', ':'], rest)
      | _ => none
    | _ => none

/-- For the single-quote fixer: find the lazily-nearest closing single quote
that is followed by `,`, `]` or `}` (the lookahead), with no newline before
it; returns the content and the remainder beginning with the lookahead. -/
def findCloseQuote : List Char → Option (List Char × List Char)
  | [] => none
  | c :: cs =>
    if c = squote &&
        (match cs with
          | d :: _ => d = ',' || d = ']' || d = '}'
          | [] => false) then
      some ([], cs)
    else if c = '\n' then none
    else (findCloseQuote cs).map fun p => (c :: p.1, p.2)

/-- Scanner for `/(^|[^\\])'(.*?)'(?=[,\]\}])/g → p1 + '"' + p2 + '"'`
(convert single-quoted scalar values).  At the very start the quote may open
directly; elsewhere the preceding non-backslash character is consumed as part
of the match. -/
def fixSingleQuotesGo : Bool → Nat → List Char → List Char
  | _, 0, cs => cs
  | _, _ + 1, [] => []
  | atStart, fuel + 1, c :: cs =>
    let startMatch : Option (List Char × List Char) :=
      if atStart && c = squote then
        (findCloseQuote cs).map fun p => ('"' :: p.1 ++ ['"'], p.2)
      else none
    match startMatch with
    | some (rep, rest) => rep ++ fixSingleQuotesGo false fuel rest
    | none =>
      match cs with
      | d :: rest0 =>
        if c ≠ bslash && d = squote then
          match findCloseQuote rest0 with
          | some p => c :: '"' :: p.1 ++ '"' :: fixSingleQuotesGo false fuel p.2
          | none => c :: fixSingleQuotesGo false fuel cs
        else c :: fixSingleQuotesGo false fuel cs
      | [] => [c]

/-- `/(^|[^\\])'(.*?)'(?=[,\]\}])/g` pass. -/
def fixSingleQuotes (cs : List Char) : List Char := fixSingleQuotesGo true cs.length cs

/-- Matcher for `/,\s*([\]\}])/g → '$1'` (remove trailing commas). -/
def matchTrailingComma (cs : List Char) : Option (List Char × List Char) :=
  match cs with
  | ',' :: rest =>
    match rest.dropWhile jsWsChar with
    | b :: rest2 => if b = ']' || b = '}' then some ([b], rest2) else none
    | [] => none
  | _ => none

/-- Matcher for `/\["([^"]*):\s*([^"]*)"\]/ → '["$1", "$2"]'` (fix broken
`key: value` packed into a one-element array).  The greedy first group splits
at the last colon of the quote-free run. -/
def matchBrokenKV (cs : List Char) : Option (List Char × List Char) :=
  match cs with
  | '[' :: '"' :: rest =>
    let run := rest.takeWhile fun c => c ≠ '"'
    match rest.dropWhile (fun c => c ≠ '"') with
    | '"' :: ']' :: rest2 =>
      let rev := run.reverse
      let bRev := rev.takeWhile fun c => c ≠ ':'
      if bRev.length = run.length then none
      else
        let a := ((rev.dropWhile fun c => c ≠ ':').tail).reverse
        let b := bRev.reverse.dropWhile jsWsChar
        some ('[' :: '"' :: a ++ '"' :: ',' :: ' ' :: '"' :: b ++ ['"', ']'], rest2)
    | _ => none
  | _ => none

/-- The repair pass applied when the first table-mode `JSON.parse` fails
(lines 291–297); the broken-key-value fix is applied three times in the
source. -/
def repairTableJson (cs : List Char) : List Char :=
  let a := scanReplace matchQuoteKey cs.length cs
  let b := fixSingleQuotes a
  let c := scanReplace matchTrailingComma b.length b
  let d := scanReplace matchBrokenKV c.length c
  let e := scanReplace matchBrokenKV d.length d
  scanReplace matchBrokenKV e.length e

/-! ## Table-mode structured parse (lines 270–342) -/

/-- The inner `try` of the table parse: clean the text, attempt a direct
`JSON.parse`, then repair and re-attempt; a second failure raises the error
that the enclosing `catch` swallows. -/
def structuredParseE (text : String) : Except String Json :=
  let cleaned := jsTrimL (stripFences (jsTrimL text.data))
  match jsonParse (String.mk cleaned) with
  | some obj => Except.ok obj
  | none =>
    match jsonParse (String.mk (repairTableJson cleaned)) with
    | some obj => Except.ok obj
    | none => Except.error "Failed to parse JSON after cleanup"

/-- Does a parsed value have the `{ headers: [...], rows: [...] }` shape? -/
def hasTableShape (j : Json) : Bool :=
  match j with
  | Json.obj ms =>
    (match objGet ms "headers" with | some (Json.arr _) => true | _ => false) &&
    (match objGet ms "rows" with | some (Json.arr _) => true | _ => false)
  | _ => false

/-- Validation of parsed headers (lines 316–319): stringify, drop entries
that are empty, all-whitespace, or contain `[` or `{`, and truncate. -/
def tableHeaderFilter (fuel : Nat) (hs : List Json) (cols : Nat) : List String :=
  ((hs.map (jsToStringF fuel)).filter fun x =>
    !x.data.isEmpty && !(jsTrim x).data.isEmpty &&
      !jsContainsChar x '[' && !jsContainsChar x '{').take cols

/-- Validation of parsed rows (lines 326–330): stringify cells, truncate or
pad each row to `cols` cells, drop zero-length rows, truncate to `rows`. -/
def tableRowsClean (fuel : Nat) (rs : List Json) (rows cols : Nat) : List (List String) :=
  (((rs.map fun r =>
      match r with
      | Json.arr cells => cells.map (jsToStringF fuel)
      | _ => ([] : List String)).map
    fun r => if r.length > cols then r.take cols else r ++ List.replicate (cols - r.length) "").filter
    fun row => !row.isEmpty).take rows

/-- The structured-parse phase: headers and body rows accumulated by the
`try` block, empty on parse failure or wrong shape (the `catch` and the
skipped `if`). -/
def parseTablePhase (text : String) (rows cols : Nat) : List String × List (List String) :=
  match structuredParseE text with
  | Except.error _ => ([], [])
  | Except.ok j =>
    match j with
    | Json.obj ms =>
      match objGet ms "headers", objGet ms "rows" with
      | some (Json.arr hs), some (Json.arr rs) =>
        (tableHeaderFilter (text.data.length + 1) hs cols,
          tableRowsClean (text.data.length + 1) rs rows cols)
      | _, _ => ([], [])
    | _ => ([], [])

/-! ## Table-mode header fallback (lines 345–386) -/

def userBase : List String :=
  ["User ID", "Name", "Email", "Role", "Department", "Status"]
def userExtras : List String :=
  ["Username", "Phone", "Location", "Manager", "Last Login", "Created At", "Country", "City"]
def productBase : List String :=
  ["Product ID", "Name", "Category", "Price", "Stock", "Rating"]
def productExtras : List String :=
  ["SKU", "Brand", "Color", "Weight", "Dimensions", "Release Date", "Supplier", "Warehouse"]
def orderBase : List String :=
  ["Order ID", "Customer", "Product", "Quantity", "Price", "Date"]
def orderExtras : List String :=
  ["Status", "Shipping Address", "Payment Method", "Tracking No", "Sales Rep", "Discount", "Tax", "Total"]
def perfBase : List String :=
  ["Application", "Hostname", "Method", "Start Time", "Response Time (ms)", "Load Time (ms)",
    "Downtime (min)", "Status"]
def perfExtras : List String :=
  ["Region", "SLA (%)", "Error Rate (%)", "CPU (%)", "Memory (%)", "Disk (%)", "Endpoint", "Env"]

/-- Keyword-based template selection over the lower-cased prompt
(lines 362–373), first match wins. -/
def proposedHeaders (prompt : String) : List String :=
  let promptLower := jsLower prompt
  if jsIncludes promptLower "user" || jsIncludes promptLower "management" then
    userBase ++ userExtras
  else if jsIncludes promptLower "product" then
    productBase ++ productExtras
  else if jsIncludes promptLower "order" || jsIncludes promptLower "sales" then
    orderBase ++ orderExtras
  else if jsIncludes promptLower "performance" || jsIncludes promptLower "downtime" ||
      jsIncludes promptLower "uptime" then
    perfBase ++ perfExtras
  else []

/-- The `while (headers.length < cols) headers.push('Column ' + (headers.length + 1))`
loop; the loop runs exactly `cols - headers.length` times, passed as the
first argument. -/
def padColumnsGo : Nat → List String → List String
  | 0, hs => hs
  | n + 1, hs => padColumnsGo n (hs ++ ["Column " ++ toString (hs.length + 1)])

/-- Fallback header generation (lines 345–381): trim or pad the proposed
template to exactly `cols`. -/
def fallbackHeaders (prompt : String) (cols : Nat) : List String :=
  let proposed := proposedHeaders prompt
  if proposed.length ≥ cols then proposed.take cols
  else padColumnsGo (cols - proposed.length) proposed

/-! ## Table-mode row fallback (lines 388–465)

The source draws from `Math.random()` and `Date.now()` inside the row loop.
These draws are modelled by the oracle structure `Gen`: each field stands for
one random/time-based helper of the source, indexed by the row (and column)
at which the source would make its fresh draw.  Everything deterministic —
branch selection on header substrings, identifiers, usernames, emails,
hostnames, endpoints, parities — is modelled concretely. -/

def roles : List String :=
  ["Admin", "Manager", "Editor", "Viewer", "Analyst", "Developer", "Designer", "Support"]
def departments : List String :=
  ["Engineering", "Sales", "Marketing", "Finance", "HR", "Operations", "Customer Success", "IT"]
def cities : List String :=
  ["New York", "San Francisco", "London", "Berlin", "Paris", "Toronto", "Sydney", "Tokyo"]
def httpMethods : List String := ["GET", "POST", "PUT", "DELETE", "PATCH"]
def regions : List String := ["us-east-1", "us-west-2", "eu-central-1", "ap-south-1"]
def envs : List String := ["prod", "staging", "dev"]

/-- Oracle for the unseeded random and wall-clock helpers of the row
fallback: `rand`, `randomName`, `phone`, `dateRecent`, `timeOfDay`, `int`,
`pct`.  `pick r c arr` models `rand(arr)` drawn at row `r`, column `c`;
`nameAt r` models the per-row `const name = randomName()`. -/
structure Gen where
  pick : Nat → Nat → List String → String
  nameAt : Nat → String
  managerName : Nat → Nat → String
  phoneAt : Nat → Nat → String
  dateRecent : Nat → Nat → String
  timeOfDay : Nat → Nat → String
  intR : Nat → Nat → Nat → Nat → Nat
  pct : Nat → Nat → ℚ → ℚ → String

/-- `usernameFrom(name)`: lower-case, remove every non-letter, keep 12. -/
def usernameFrom (name : String) : String :=
  String.mk (((jsLower name).data.filter fun c => 97 ≤ c.toNat && c.toNat ≤ 122).take 12)

/-- `emailFrom(name, i)`. -/
def emailFrom (name : String) (i : Nat) : String :=
  usernameFrom name ++ toString (i + 1) ++ "@example.com"

/-- `id(i)`. -/
def idGen (i : Nat) : String := "USR-" ++ toString (1000 + i)

/-- `hostname(i)`. -/
def hostnameGen (i : Nat) : String := "host" ++ toString (i + 1) ++ ".example.com"

/-- `endpoint(i)`. -/
def endpointGen (i : Nat) : String :=
  "/api/v" ++ toString (1 + i % 3) ++ "/resource/" ++ toString (100 + i)

/-- One synthesized cell of the row fallback (lines 424–458): the
else-if chain over the lower-cased header of column `c`. -/
def synthCell (g : Gen) (headers : List String) (name : String) (r c : Nat) : String :=
  let h := jsLower ((headers[c]?).getD "")
  if jsIncludes h "user id" || h = "id" || h = "userid" ||
      (jsIncludes h "id" && !jsIncludes h "order" && !jsIncludes h "product") then idGen r
  else if h = "name" || jsIncludes h "full name" then name
  else if jsIncludes h "username" then usernameFrom name
  else if jsIncludes h "email" then emailFrom name r
  else if jsIncludes h "role" then g.pick r c roles
  else if jsIncludes h "department" then g.pick r c departments
  else if jsIncludes h "status" && !(jsIncludes h "http" || jsIncludes h "code") then
    (if r % 2 = 0 then "Active" else "Inactive")
  else if jsIncludes h "phone" then g.phoneAt r c
  else if jsIncludes h "location" || jsIncludes h "city" then g.pick r c cities
  else if jsIncludes h "manager" then g.managerName r c
  else if jsIncludes h "last login" then g.dateRecent r c
  else if jsIncludes h "created" then g.dateRecent r c
  else if jsIncludes h "updated" then g.dateRecent r c
  else if jsIncludes h "application" then "Application " ++ toString (r + 1)
  else if jsIncludes h "hostname" then hostnameGen r
  else if jsIncludes h "method" then g.pick r c httpMethods
  else if jsIncludes h "start time" then g.timeOfDay r c
  else if jsIncludes h "response time" then toString (g.intR r c 50 1200)
  else if jsIncludes h "load time" then toString (g.intR r c 200 5000)
  else if jsIncludes h "downtime" then toString (g.intR r c 0 120)
  else if jsIncludes h "sla" then g.pct r c 95 99.99
  else if jsIncludes h "error rate" then g.pct r c 0 5
  else if jsIncludes h "cpu" then g.pct r c 5 95
  else if jsIncludes h "memory" then g.pct r c 5 95
  else if jsIncludes h "disk" then g.pct r c 5 95
  else if jsIncludes h "endpoint" then endpointGen r
  else if jsIncludes h "env" then g.pick r c envs
  else if jsIncludes h "region" then g.pick r c regions
  else if h = "status" then (if g.intR r c 0 1 ≠ 0 then "Up" else "Down")
  else "Value " ++ toString (r + 1) ++ "-" ++ toString (c + 1)

/-- Fallback row generation (lines 421–460). -/
def fallbackRows (g : Gen) (headers : List String) (rows cols : Nat) : List (List String) :=
  (List.range rows).map fun r =>
    let name := g.nameAt r
    (List.range cols).map fun c => synthCell g headers name r c

/-- The `/generateTable` core after text extraction (lines 270–467):
structured parse, then header fallback when the header count is off, then
row fallback when the row count is off (against the final headers). -/
def generateTableCore (text prompt : String) (rows cols : Nat) (g : Gen) :
    List String × List (List String) :=
  let parsed := parseTablePhase text rows cols
  let headers := if parsed.1.length ≠ cols then fallbackHeaders prompt cols else parsed.1
  let bodyRows := if parsed.2.length ≠ rows then fallbackRows g headers rows cols else parsed.2
  (headers, bodyRows)

/-- The `/generateTable` region after text extraction, as a fallible
computation: the source contains no `throw` outside the inner `try`, so the
result is always `ok`. -/
def generateTableResult (text prompt : String) (rows cols : Nat) (g : Gen) :
    Except String (List String × List (List String)) :=
  Except.ok (generateTableCore text prompt rows cols g)

/-! ## Response-envelope extraction (lines 138–145 and 252–262) -/

/-- A chat choice's message. -/
structure Message where
  content : String

/-- One element of `choices`. -/
structure Choice where
  message : Option Message

/-- One element of `results`. -/
structure ResultItem where
  generated_text : Option String

/-- The model-service response envelope: each field may be absent. -/
structure Envelope where
  choices : Option (List Choice)
  results : Option (List ResultItem)
  output : Option String

/-- List mode: `genData.choices && genData.choices[0] && genData.choices[0].message`
— the first choice's message, when present. -/
def listChoicesText (e : Envelope) : Option String :=
  ((e.choices.bind List.head?).bind Choice.message).map Message.content

/-- `Array.isArray(genData.results) && genData.results[0]?.generated_text` —
the first result's generated text, when present and truthy (non-empty). -/
def resultsText (e : Envelope) : Option String :=
  match (e.results.bind List.head?).bind ResultItem.generated_text with
  | some s => if s = "" then none else some s
  | none => none

/-- List-mode text extraction (lines 138–145): choices, then results, then
`String(genData.output || '')`. -/
def extractListText (e : Envelope) : String :=
  match listChoicesText e with
  | some t => t
  | none =>
    match resultsText e with
    | some t => t
    | none => e.output.getD ""

/-- Table mode: `genData.choices && genData.choices[0] && genData.choices[0].message`
(the same check as list mode). -/
def tableChoicesText (e : Envelope) : Option String := listChoicesText e

/-- Table-mode text extraction (lines 255–262): results first, then choices,
otherwise the handler throws. -/
def extractTableText (e : Envelope) : Except String String :=
  match resultsText e with
  | some t => Except.ok t
  | none =>
    match tableChoicesText e with
    | some t => Except.ok t
    | none => Except.error "Unexpected response structure from watsonx.ai"

/-! ## `/token` API-key selection (lines 25–44) -/

/-- `WATSON_API_KEY || req.body.apiKey`: the environment key when truthy
(present and non-empty), else the request body's key (possibly absent). -/
def tokenApiKeyArg (envKey bodyKey : Option String) : Option String :=
  match envKey with
  | some k => if k = "" then bodyKey else some k
  | none => bodyKey

/-- Unreserved characters of `encodeURIComponent`. -/
def isUnreservedUri (c : Char) : Bool :=
  (48 ≤ c.toNat && c.toNat ≤ 57) || (65 ≤ c.toNat && c.toNat ≤ 90) ||
    (97 ≤ c.toNat && c.toNat ≤ 122) ||
    c = '-' || c = '_' || c = '.' || c = '!' || c = '~' || c = '*' || c = squote ||
    c = '(' || c = ')'

/-- UTF-8 bytes of a character. -/
def utf8Bytes (c : Char) : List Nat :=
  let n := c.toNat
  if n < 128 then [n]
  else if n < 2048 then [192 + n / 64, 128 + n % 64]
  else if n < 65536 then [224 + n / 4096, 128 + (n / 64) % 64, 128 + n % 64]
  else [240 + n / 262144, 128 + (n / 4096) % 64, 128 + (n / 64) % 64, 128 + n % 64]

/-- `encodeURIComponent` of a string. -/
def encodeURIComponentJs (s : String) : String :=
  String.mk (s.data.flatMap fun c =>
    if isUnreservedUri c then [c]
    else (utf8Bytes c).flatMap fun b => ['%', hexDigitChar (b / 16), hexDigitChar (b % 16)])

/-- `encodeURIComponent` applied to a possibly-undefined value: JavaScript
coerces `undefined` to the string `"undefined"`. -/
def encodeURIComponentOpt (k : Option String) : String :=
  match k with
  | some s => encodeURIComponentJs s
  | none => "undefined"

/-- The outgoing form body of the IAM token exchange (line 43). -/
def tokenRequestBody (envKey bodyKey : Option String) : String :=
  "grant_type=urn:ibm:params:oauth:grant-type:apikey&apikey=" ++
    encodeURIComponentOpt (tokenApiKeyArg envKey bodyKey)

/-! # Theorems

## C1: the resize step of `/generate` -/

/-- Padding the empty list pushes only empty strings. -/
lemma padFrom_replicate (n : Nat) : ∀ i : Nat,
    padFrom (List.replicate i "") i n = List.replicate (i + n) "" := by
  induction n with
  | zero => intro i; simp [padFrom]
  | succ n ih =>
    intro i
    have hx : ((List.replicate i ("" : String))[i % max 1 (List.replicate i ("" : String)).length]?).getD "" = "" := by
      cases i with
      | zero => simp
      | succ k => simp [List.getElem?_replicate, Nat.mod_self]
    rw [padFrom, hx, ← List.replicate_succ']
    rw [ih (i + 1)]
    congr 1
    omega

/-- Padding a non-empty list cycles it: every position `j` of the padded list
holds the original entry at `j` modulo the original length. -/
lemma padFrom_cycle (l : List String) (hl : 0 < l.length) :
    ∀ (n i : Nat) (curr : List String), curr.length = l.length + i →
      (∀ j, j < curr.length → curr[j]? = l[j % l.length]?) →
      (padFrom curr i n).length = l.length + i + n ∧
      (∀ j, j < l.length + i + n → (padFrom curr i n)[j]? = l[j % l.length]?) := by
  intro n
  induction n with
  | zero =>
    intro i curr hlen hinv
    exact ⟨by simp [padFrom, hlen], fun j hj => hinv j (by omega)⟩
  | succ n ih =>
    intro i curr hlen hinv
    have hlt : i % l.length < l.length := Nat.mod_lt _ hl
    obtain ⟨v, hv⟩ : ∃ v, l[i % l.length]? = some v :=
      ⟨l[i % l.length], List.getElem?_eq_getElem hlt⟩
    have hig : curr[i]? = l[i % l.length]? := hinv i (by omega)
    have hval : (curr[i % max 1 curr.length]?).getD "" = v := by
      have hm : i % max 1 curr.length = i := by
        have : max 1 curr.length = l.length + i := by omega
        rw [this]; exact Nat.mod_eq_of_lt (by omega)
      rw [hm, hig, hv]; rfl
    rw [padFrom, hval]
    have hlen' : (curr ++ [v]).length = l.length + (i + 1) := by
      simp [hlen]; omega
    have hinv' : ∀ j, j < (curr ++ [v]).length → (curr ++ [v])[j]? = l[j % l.length]? := by
      intro j hj
      rcases Nat.lt_or_ge j curr.length with hlt' | hge
      · rw [List.getElem?_append_left hlt']; exact hinv j hlt'
      · have hje : j = curr.length := by
          simp at hj hlen'; omega
        subst hje
        rw [List.getElem?_concat_length]
        have : curr.length % l.length = i % l.length := by
          rw [hlen]; exact Nat.add_mod_left _ _
        rw [this, hv]
    obtain ⟨h1, h2⟩ := ih (i + 1) (curr ++ [v]) hlen' hinv'
    exact ⟨by rw [h1]; omega, fun j hj => h2 j (by omega)⟩

/-- Characterization of the `/generate` resize step: the empty list is padded
with empty strings; a non-empty list is cycled (position `j` maps to entry
`j` modulo the length) and truncated, covering both the padding and the
truncation case. -/
lemma resizeToCount_spec (l : List String) (count : Nat) :
    resizeToCount l count =
      if l.length = 0 then List.replicate count ""
      else (List.range count).map fun j => (l[j % l.length]?).getD "" := by
  by_cases h0 : l.length = 0
  · have hl : l = [] := List.length_eq_zero.mp h0
    subst hl
    rw [if_pos (show ([] : List String).length = 0 from rfl)]
    show (if ([] : List String).length < count then padFrom [] 0 (count - 0) else []).take count
      = List.replicate count ""
    rcases Nat.eq_zero_or_pos count with hc | hc
    · subst hc; simp
    · rw [if_pos (by simpa using hc)]
      have := padFrom_replicate count 0
      simp only [List.replicate_zero, Nat.zero_add] at this
      rw [Nat.sub_zero, this, List.take_replicate, Nat.min_self]
  · have hl : 0 < l.length := Nat.pos_of_ne_zero h0
    rw [if_neg h0]
    rcases Nat.lt_or_ge l.length count with hc | hc
    · obtain ⟨hlen, hget⟩ := padFrom_cycle l hl (count - l.length) 0 l (by omega)
        (fun j hj => by rw [Nat.mod_eq_of_lt (by omega)])
      show (if l.length < count then padFrom l 0 (count - l.length) else l).take count
        = (List.range count).map fun j => (l[j % l.length]?).getD ""
      rw [if_pos hc]
      apply List.ext_getElem?
      intro j
      rw [List.getElem?_take]
      rcases Nat.lt_or_ge j count with hj | hj
      · rw [if_pos hj]
        have hjm : j % l.length < l.length := Nat.mod_lt _ hl
        obtain ⟨w, hw⟩ : ∃ w, l[j % l.length]? = some w :=
          ⟨l[j % l.length], List.getElem?_eq_getElem hjm⟩
        rw [hget j (by omega), hw, List.getElem?_map, List.getElem?_range hj]
        simp [hw]
      · rw [if_neg (by omega)]
        symm
        rw [List.getElem?_map]
        rw [List.getElem?_eq_none (by simpa using hj)]
        rfl
    · show (if l.length < count then padFrom l 0 (count - l.length) else l).take count
        = (List.range count).map fun j => (l[j % l.length]?).getD ""
      rw [if_neg (by omega)]
      apply List.ext_getElem?
      intro j
      rw [List.getElem?_take, List.getElem?_map]
      rcases Nat.lt_or_ge j count with hj | hj
      · rw [if_pos hj, List.getElem?_range hj]
        have hjl : j < l.length := by omega
        simp only [Option.map_some']
        rw [Nat.mod_eq_of_lt hjl]
        simp [List.getElem?_eq_getElem hjl]
      · rw [if_neg (by omega), List.getElem?_eq_none (by simpa using hj)]
        rfl

/-- C1: for every raw model text and every count, the `/generate` pipeline
(`normalizeToList` followed by the resize step) returns exactly `count`
entries; when the normalized list is shorter it is padded by repeating the
cycle of collected values (position modulo the collected length, empty
strings when nothing was collected), and when longer it is truncated to the
first `count` entries. -/
theorem c1_generate_pipeline_exact_count (text : String) (count : Nat) :
    (generateList text count).length = count ∧
    generateList text count =
      (if (normalizeToList text).length = 0 then List.replicate count ""
       else (List.range count).map fun j =>
         ((normalizeToList text)[j % (normalizeToList text).length]?).getD "") := by
  have hs := resizeToCount_spec (normalizeToList text) count
  refine ⟨?_, hs⟩
  rw [generateList, hs]
  by_cases h : (normalizeToList text).length = 0 <;> simp [h]

/-! ## C6: table-mode header fallback -/

/-- The `Column N` padding loop, characterized with `List.range'`: starting
from `hs`, the labels count `hs.length + 1` up to `hs.length + n`. -/
lemma padColumnsGo_spec (n : Nat) : ∀ hs : List String,
    padColumnsGo n hs =
      hs ++ (List.range' (hs.length + 1) n).map fun k => "Column " ++ toString k := by
  induction n with
  | zero => intro hs; simp [padColumnsGo]
  | succ n ih =>
    intro hs
    rw [padColumnsGo, ih]
    simp [List.range'_succ, List.append_assoc]

/-- Length of the padding loop result. -/
lemma padColumnsGo_length (n : Nat) (hs : List String) :
    (padColumnsGo n hs).length = hs.length + n := by
  rw [padColumnsGo_spec]; simp

/-- The header fallback always produces exactly `cols` headers. -/
lemma fallbackHeaders_length (prompt : String) (cols : Nat) :
    (fallbackHeaders prompt cols).length = cols := by
  unfold fallbackHeaders
  by_cases h : (proposedHeaders prompt).length ≥ cols
  · rw [if_pos h]; simp [List.length_take]; omega
  · rw [if_neg h, padColumnsGo_length]; omega

/-- Truncate-or-pad characterization of the header fallback. -/
lemma fallbackHeaders_spec (prompt : String) (cols : Nat) :
    fallbackHeaders prompt cols =
      (proposedHeaders prompt).take cols ++
        (List.range' ((proposedHeaders prompt).length + 1)
          (cols - (proposedHeaders prompt).length)).map fun k => "Column " ++ toString k := by
  unfold fallbackHeaders
  by_cases h : (proposedHeaders prompt).length ≥ cols
  · rw [if_pos h]
    have : cols - (proposedHeaders prompt).length = 0 := by omega
    simp [this]
  · rw [if_neg h, padColumnsGo_spec]
    rw [List.take_of_length_le (by omega)]

/-- The ordered keyword table of §4.3, written as (predicate, template)
pairs searched for the first match; used to state the order/first-match part
of the claim. -/
def templateTable : List ((String → Bool) × List String) :=
  [(fun p => jsIncludes p "user" || jsIncludes p "management", userBase ++ userExtras),
   (fun p => jsIncludes p "product", productBase ++ productExtras),
   (fun p => jsIncludes p "order" || jsIncludes p "sales", orderBase ++ orderExtras),
   (fun p => jsIncludes p "performance" || jsIncludes p "downtime" || jsIncludes p "uptime",
     perfBase ++ perfExtras)]

/-- First-match search of an ordered (predicate, template) table. -/
def firstMatch (p : String) : List ((String → Bool) × List String) → List String
  | [] => []
  | e :: rest => if e.1 p then e.2 else firstMatch p rest

/-- First-match lookup in the keyword table (empty template when none match). -/
def templateFor (p : String) : List String := firstMatch p templateTable

/-- The source's if-chain equals first-match search of the ordered table. -/
lemma proposedHeaders_eq_templateFor (p : String) :
    proposedHeaders p = templateFor (jsLower p) := rfl

/-- C6: for every prompt and `cols`, the fallback headers are the first-match
template of the ordered keyword table (user/management, product, order/sales,
performance/downtime/uptime over the lower-cased prompt; empty when none
match), truncated to `cols` entries if longer and padded with labels
`Column N` (`N` the 1-based position) until exactly `cols` headers exist. -/
theorem c6_header_fallback_truncate_pad (prompt : String) (cols : Nat) :
    (fallbackHeaders prompt cols).length = cols ∧
    proposedHeaders prompt = templateFor (jsLower prompt) ∧
    fallbackHeaders prompt cols =
      (templateFor (jsLower prompt)).take cols ++
        (List.range' ((templateFor (jsLower prompt)).length + 1)
          (cols - (templateFor (jsLower prompt)).length)).map fun k => "Column " ++ toString k := by
  refine ⟨fallbackHeaders_length prompt cols, proposedHeaders_eq_templateFor prompt, ?_⟩
  rw [← proposedHeaders_eq_templateFor]
  exact fallbackHeaders_spec prompt cols

/-! ## C2: exact table dimensions -/

/-- Every row surviving the structured-parse row cleanup has exactly `cols`
cells (rows are truncated or right-padded before the non-empty filter). -/
lemma tableRowsClean_mem_length (fuel : Nat) (rs : List Json) (rows cols : Nat) :
    ∀ row ∈ tableRowsClean fuel rs rows cols, row.length = cols := by
  intro row hrow
  unfold tableRowsClean at hrow
  have h1 := List.mem_of_mem_take hrow
  have h2 := List.mem_of_mem_filter h1
  obtain ⟨r, _, rfl⟩ := List.mem_map.mp h2
  by_cases h : r.length > cols
  · simp [h, List.length_take]; omega
  · simp [h]; omega

/-- Every row of the structured-parse phase has exactly `cols` cells. -/
lemma parseTablePhase_row_lengths (text : String) (rows cols : Nat) :
    ∀ row ∈ (parseTablePhase text rows cols).2, row.length = cols := by
  intro row hrow
  unfold parseTablePhase at hrow
  rcases hsp : structuredParseE text with msg | j
  · rw [hsp] at hrow; simp at hrow
  · rw [hsp] at hrow
    rcases j with s | lx | b | _ | xs | ms
    · simp at hrow
    · simp at hrow
    · simp at hrow
    · simp at hrow
    · simp at hrow
    · dsimp only at hrow
      rcases hh : objGet ms "headers" with _ | jh <;> rw [hh] at hrow
      · simp at hrow
      · rcases hr : objGet ms "rows" with _ | jr <;> rw [hr] at hrow
        · rcases jh with s | lx | b | _ | hs | hms <;> simp at hrow
        · rcases jh with s | lx | b | _ | hs | hms <;>
            rcases jr with s2 | lx2 | b2 | _ | rs | rms <;>
              first
                | (exact tableRowsClean_mem_length _ _ rows cols row
                    (by simpa using hrow))
                | (simp at hrow)

/-- The fallback rows form a `rows × cols` grid. -/
lemma fallbackRows_length (g : Gen) (hs : List String) (rows cols : Nat) :
    (fallbackRows g hs rows cols).length = rows := by
  simp [fallbackRows]

/-- Each fallback row has exactly `cols` cells. -/
lemma fallbackRows_mem_length (g : Gen) (hs : List String) (rows cols : Nat) :
    ∀ row ∈ fallbackRows g hs rows cols, row.length = cols := by
  intro row hrow
  obtain ⟨r, _, rfl⟩ := List.mem_map.mp hrow
  simp

/-- C2: for every raw model text, prompt, and dimensions, the `/generateTable`
core returns exactly `cols` headers and exactly `rows` rows, each of exactly
`cols` cells (the map of row lengths is the constant `cols` grid); no cell is
absent. -/
theorem c2_table_dimensions_exact (text prompt : String) (rows cols : Nat) (g : Gen) :
    (generateTableCore text prompt rows cols g).1.length = cols ∧
    (generateTableCore text prompt rows cols g).2.length = rows ∧
    ((generateTableCore text prompt rows cols g).2.map List.length) =
      List.replicate rows cols := by
  unfold generateTableCore
  by_cases hh : (parseTablePhase text rows cols).1.length ≠ cols <;>
    by_cases hr : (parseTablePhase text rows cols).2.length ≠ rows
  · refine ⟨?_, ?_, ?_⟩
    · simp only [if_pos hh]; exact fallbackHeaders_length prompt cols
    · simp only [if_pos hh, if_pos hr]; exact fallbackRows_length ..
    · simp only [if_pos hh, if_pos hr]
      refine List.eq_replicate_iff.mpr ⟨by simp [fallbackRows_length], ?_⟩
      intro b hb
      obtain ⟨row, hrow, rfl⟩ := List.mem_map.mp hb
      exact fallbackRows_mem_length _ _ _ _ row hrow
  · refine ⟨?_, ?_, ?_⟩
    · simp only [if_pos hh]; exact fallbackHeaders_length prompt cols
    · simp only [if_pos hh, if_neg hr]; omega
    · simp only [if_pos hh, if_neg hr]
      refine List.eq_replicate_iff.mpr ⟨by simpa using by omega, ?_⟩
      intro b hb
      obtain ⟨row, hrow, rfl⟩ := List.mem_map.mp hb
      exact parseTablePhase_row_lengths text rows cols row hrow
  · refine ⟨?_, ?_, ?_⟩
    · simp only [if_neg hh]; omega
    · simp only [if_neg hh, if_pos hr]; exact fallbackRows_length ..
    · simp only [if_neg hh, if_pos hr]
      refine List.eq_replicate_iff.mpr ⟨by simp [fallbackRows_length], ?_⟩
      intro b hb
      obtain ⟨row, hrow, rfl⟩ := List.mem_map.mp hb
      exact fallbackRows_mem_length _ _ _ _ row hrow
  · refine ⟨?_, ?_, ?_⟩
    · simp only [if_neg hh]; omega
    · simp only [if_neg hh, if_neg hr]; omega
    · simp only [if_neg hh, if_neg hr]
      refine List.eq_replicate_iff.mpr ⟨by simpa using by omega, ?_⟩
      intro b hb
      obtain ⟨row, hrow, rfl⟩ := List.mem_map.mp hb
      exact parseTablePhase_row_lengths text rows cols row hrow


/-! ## C3: the structured-parse phase never surfaces an error -/

/-- C3: the table-mode structured-parse phase is total: when both parse
attempts fail, or the parsed value does not have the `headers`/`rows` array
shape, headers and body rows are left as empty arrays (deferring to fallback
synthesis), and the handler region after text extraction always produces an
`ok` table response, never an error. -/
theorem c3_parse_failure_defers_to_fallback (text : String) (rows cols : Nat) :
    ((structuredParseE text).toOption = none → parseTablePhase text rows cols = ([], [])) ∧
    (∀ j, structuredParseE text = Except.ok j → hasTableShape j = false →
      parseTablePhase text rows cols = ([], [])) ∧
    (∀ (prompt : String) (g : Gen),
      (generateTableResult text prompt rows cols g).toOption.isSome = true) := by
  refine ⟨?_, ?_, fun _ _ => rfl⟩
  · intro h
    unfold parseTablePhase
    rcases hsp : structuredParseE text with msg | j
    · rfl
    · rw [hsp] at h; simp [Except.toOption] at h
  · intro j hj hshape
    unfold parseTablePhase
    rw [hj]
    rcases j with s | lx | b | _ | xs | ms
    · rfl
    · rfl
    · rfl
    · rfl
    · rfl
    · dsimp only
      rcases hh : objGet ms "headers" with _ | jh
      · rfl
      · rcases hr : objGet ms "rows" with _ | jr
        · rcases jh with s | lx | b | _ | hs | hms <;> rfl
        · rcases jh with s | lx | b | _ | hs | hms <;>
            rcases jr with s2 | lx2 | b2 | _ | rs | rms <;>
              first
                | rfl
                | (simp [hasTableShape, hh, hr] at hshape)

/-- C3 witness: the non-JSON text `"hello"` fails both parse attempts and
yields empty headers and rows. -/
theorem c3_witness : parseTablePhase "hello" 2 2 = ([], []) :=
  (c3_parse_failure_defers_to_fallback "hello" 2 2).1 rfl

/-! ## C4: response-envelope shapes -/

/-- C4 counterexample: an envelope carrying only the generic `output` field —
one of the three known shapes — is rejected by the table-mode extraction with
the unexpected-structure error, so table mode does not fail "exactly when
none of the three shapes matches". -/
theorem c4_counterexample :
    extractTableText { choices := none, results := none, output := some "x" } =
      Except.error "Unexpected response structure from watsonx.ai" ∧
    (Envelope.output { choices := none, results := none, output := some "x" }).isSome = true :=
  ⟨rfl, rfl⟩

/-- C4 (amended): table mode consults only the `results` and `choices` shapes
(in that order) and fails exactly when neither matches — the generic `output`
shape is not consulted in table mode; list mode treats an envelope matching
neither `choices` nor `results` as `String(output or empty)`, never as an
error. -/
theorem c4_envelope_shapes_amended (e : Envelope) :
    ((extractTableText e).toOption = none ↔
      resultsText e = none ∧ tableChoicesText e = none) ∧
    (listChoicesText e = none → resultsText e = none →
      extractListText e = e.output.getD "") := by
  constructor
  · unfold extractTableText
    rcases hr : resultsText e with _ | t
    · rcases hc : tableChoicesText e with _ | t2 <;> simp [Except.toOption]
    · simp [Except.toOption, hr]
  · intro h1 h2
    unfold extractListText
    rw [h1, h2]

/-- C4 witness: at the output-only envelope, list mode extracts the output
text while the table-mode extraction yields no value. -/
theorem c4_witness :
    extractListText { choices := none, results := none, output := some "x" } = "x" ∧
    (extractTableText { choices := none, results := none, output := some "x" }).toOption = none := by
  have h := c4_envelope_shapes_amended { choices := none, results := none, output := some "x" }
  exact ⟨h.2 rfl rfl, h.1.mpr ⟨rfl, rfl⟩⟩

/-! ## C5: the status rule of the row fallback -/

/-- A `Gen` oracle with constant draws, for concrete evaluations. -/
def genTrivial : Gen :=
  { pick := fun _ _ _ => "", nameAt := fun _ => "", managerName := fun _ _ => "",
    phoneAt := fun _ _ => "", dateRecent := fun _ _ => "", timeOfDay := fun _ _ => "",
    intR := fun _ _ _ _ => 0, pct := fun _ _ _ _ => "" }

/-- C5 counterexample: for the header exactly `status` the cell is the
deterministic parity value `Active`/`Inactive` — never a random `Up`/`Down`
(the `h === 'status'` branch is unreachable, because `'status'.includes('status')`
fires the earlier parity rule); and a header such as `Status ID` containing
`status` is captured by the earlier identity rule instead. -/
theorem c5_counterexample :
    synthCell genTrivial ["Status"] "N" 0 0 = "Active" ∧
    synthCell genTrivial ["Status"] "N" 1 0 = "Inactive" ∧
    synthCell genTrivial ["Status ID"] "N" 0 0 = "USR-1000" := by
  refine ⟨by decide, by decide, by decide⟩

/-- C5 (amended): when the lower-cased header contains `status`, contains
neither `http` nor `code`, and matches none of the earlier rules of the chain
(identity, name, username, email, role, department), the synthesized cell
alternates `Active`/`Inactive` by row parity — for every random oracle; in
particular the header exactly `status` falls under this rule, and the random
`Up`/`Down` branch is dead. -/
theorem c5_status_parity_amended (g : Gen) (headers : List String) (name : String) (r c : Nat)
    (h1 : (jsIncludes (jsLower ((headers[c]?).getD "")) "user id" ||
        jsLower ((headers[c]?).getD "") = "id" || jsLower ((headers[c]?).getD "") = "userid" ||
        (jsIncludes (jsLower ((headers[c]?).getD "")) "id" &&
          !jsIncludes (jsLower ((headers[c]?).getD "")) "order" &&
          !jsIncludes (jsLower ((headers[c]?).getD "")) "product")) = false)
    (h2 : (jsLower ((headers[c]?).getD "") = "name" ||
        jsIncludes (jsLower ((headers[c]?).getD "")) "full name") = false)
    (h3 : jsIncludes (jsLower ((headers[c]?).getD "")) "username" = false)
    (h4 : jsIncludes (jsLower ((headers[c]?).getD "")) "email" = false)
    (h5 : jsIncludes (jsLower ((headers[c]?).getD "")) "role" = false)
    (h6 : jsIncludes (jsLower ((headers[c]?).getD "")) "department" = false)
    (hStatus : jsIncludes (jsLower ((headers[c]?).getD "")) "status" = true)
    (hQual : (jsIncludes (jsLower ((headers[c]?).getD "")) "http" ||
        jsIncludes (jsLower ((headers[c]?).getD "")) "code") = false) :
    synthCell g headers name r c = if r % 2 = 0 then "Active" else "Inactive" := by
  unfold synthCell
  simp only [h1, h2, h3, h4, h5, h6, hStatus, hQual]
  simp

/-- C5 witness: the amended rule applied at the concrete header `Status`,
rows 0. -/
theorem c5_witness :
    synthCell genTrivial ["Status"] "N" 0 0 = (if 0 % 2 = 0 then "Active" else "Inactive") :=
  c5_status_parity_amended genTrivial ["Status"] "N" 0 0 (by decide) (by decide) (by decide)
    (by decide) (by decide) (by decide) (by decide) (by decide)

/-! ## C7: the bracket-list scenario -/

/-- The single quote as a one-character string. -/
def sqString : String := String.mk [squote]

/-- The scenario input `['Acme Corp', 'Globex', 'Initech']`. -/
def c7Input : String :=
  "[" ++ sqString ++ "Acme Corp" ++ sqString ++ ", " ++ sqString ++ "Globex" ++ sqString ++
    ", " ++ sqString ++ "Initech" ++ sqString ++ "]"

/-- C7: evaluating the pipeline at the scenario input.  The start-of-list and
end-of-list repair regexes fire, but the mid-list regex `/,'([^']*)'/` demands
a comma immediately followed by a quote, so `, 'Globex'` (with a space) stays
single-quoted, the JSON parse fails, and the text falls through to the CSV
split — the pipeline returns `["['Acme Corp", "Globex", "Initech']"]`, not
the scenario's `["Acme Corp", "Globex", "Initech"]`. -/
theorem c7_scenario_eval :
    generateList c7Input 3 =
      ["[" ++ sqString ++ "Acme Corp", "Globex", "Initech" ++ sqString ++ "]"] ∧
    generateList c7Input 3 ≠ ["Acme Corp", "Globex", "Initech"] := by
  refine ⟨by decide, by decide⟩



/-! ## C10: `/token` API-key selection -/

/-- C10 counterexample: with the environment key set to the empty string
(set, but falsy in JavaScript), the request body's key flows into the
outgoing exchange request: two requests differing only in the body key
produce different outgoing bodies. -/
theorem c10_counterexample :
    tokenRequestBody (some "") (some "a") ≠ tokenRequestBody (some "") (some "b") ∧
    tokenApiKeyArg (some "") (some "a") = some "a" := by
  refine ⟨by decide, rfl⟩

/-- C10 (amended): when the server-held `WATSON_API_KEY` is set to a
non-empty string, the key sent to the exchange service is the server key and
the body's `apiKey` has no influence on the outgoing request; the body key is
used exactly when the server key is absent or empty. -/
theorem c10_env_key_precedence_amended (k : String) (b1 b2 : Option String) (hk : k ≠ "") :
    tokenRequestBody (some k) b1 = tokenRequestBody (some k) b2 ∧
    tokenApiKeyArg (some k) b1 = some k ∧
    tokenApiKeyArg none b1 = b1 ∧
    tokenApiKeyArg (some "") b1 = b1 := by
  refine ⟨?_, ?_, rfl, ?_⟩
  · unfold tokenRequestBody tokenApiKeyArg
    dsimp only
    rw [if_neg hk, if_neg hk]
  · unfold tokenApiKeyArg
    dsimp only
    rw [if_neg hk]
  · unfold tokenApiKeyArg
    dsimp only
    rw [if_pos rfl]

/-- C10 witness: the amended precedence at a concrete non-empty server key. -/
theorem c10_witness :
    tokenRequestBody (some "k") (some "a") = tokenRequestBody (some "k") none ∧
    tokenApiKeyArg (some "k") (some "a") = some "k" ∧
    tokenApiKeyArg none (some "a") = some "a" ∧
    tokenApiKeyArg (some "") (some "a") = some "a" :=
  c10_env_key_precedence_amended "k" (some "a") none (by decide)

/-! ## Round trip of plain string arrays (towards C8 and C9) -/

/-- A character that is serialized verbatim and repaired by nothing: not a
control character, not a double quote, backslash or single quote. -/
def plainChar (c : Char) : Bool :=
  32 ≤ c.toNat && c.toNat ≠ 34 && c.toNat ≠ 92 && c.toNat ≠ 39

/-- A list entry that survives the pipeline unchanged: non-empty, all
characters plain, and no leading or trailing whitespace. -/
def plainEntry (s : String) : Bool :=
  !s.data.isEmpty && s.data.all plainChar &&
    (match s.data.head? with | some c => !jsWsChar c | none => true) &&
    (match s.data.getLast? with | some c => !jsWsChar c | none => true)

lemma plainChar_spec (c : Char) (h : plainChar c = true) :
    32 ≤ c.toNat ∧ c ≠ '"' ∧ c ≠ bslash ∧ c ≠ squote := by
  simp only [plainChar, Bool.and_eq_true, decide_eq_true_eq] at h
  obtain ⟨⟨⟨h32, h34⟩, h92⟩, h39⟩ := h
  refine ⟨h32, ?_, ?_, ?_⟩
  · intro he; subst he; exact h34 rfl
  · intro he; subst he; exact h92 rfl
  · intro he; subst he; exact h39 rfl

lemma jsEscapeChar_plain (c : Char) (h : plainChar c = true) : jsEscapeChar c = [c] := by
  obtain ⟨h32, hq, hbs, _⟩ := plainChar_spec c h
  have hn : c ≠ '\n' := fun he => absurd (he ▸ h32) (by decide)
  have hr : c ≠ '\r' := fun he => absurd (he ▸ h32) (by decide)
  have ht : c ≠ '\t' := fun he => absurd (he ▸ h32) (by decide)
  have h8 : c ≠ Char.ofNat 8 := fun he => absurd (he ▸ h32) (by decide)
  have h12 : c ≠ Char.ofNat 12 := fun he => absurd (he ▸ h32) (by decide)
  have hlt : ¬(c.toNat < 32) := by omega
  unfold jsEscapeChar
  rw [if_neg hq, if_neg hbs, if_neg hn, if_neg hr, if_neg ht, if_neg h8, if_neg h12, if_neg hlt]

lemma flatMap_escape_plain : ∀ l : List Char, l.all plainChar = true →
    l.flatMap jsEscapeChar = l := by
  intro l hl
  induction l with
  | nil => rfl
  | cons c cs ih =>
    simp only [List.all_cons, Bool.and_eq_true] at hl
    rw [List.flatMap_cons, jsEscapeChar_plain c hl.1, ih hl.2]
    rfl

lemma jsonQuoteStr_plain (s : String) (h : s.data.all plainChar = true) :
    jsonQuoteStr s = '"' :: s.data ++ ['"'] := by
  unfold jsonQuoteStr
  rw [flatMap_escape_plain s.data h]

/-- Character classification of the serialized items: every character is a
double quote, a comma, or a plain entry character. -/
lemma mem_serItems (l : List String) (hall : ∀ s ∈ l, s.data.all plainChar = true) :
    ∀ c ∈ serItems l, c = '"' ∨ c = ',' ∨ plainChar c = true := by
  induction l with
  | nil => intro c hc; simp [serItems] at hc
  | cons s rest ih =>
    rw [serItems, jsonQuoteStr_plain s (hall s (by simp))]
    refine List.forall_mem_append.mpr ⟨List.forall_mem_append.mpr ⟨?_, ?_⟩, ?_⟩
    · intro c hcm
      rcases List.mem_cons.mp hcm with h | h
      · exact Or.inl h
      · rcases List.mem_append.mp h with h | h
        · exact Or.inr (Or.inr (List.all_eq_true.mp (hall s (by simp)) c h))
        · exact Or.inl (List.mem_singleton.mp h)
    · intro c hcm
      by_cases he : rest.isEmpty = true
      · rw [if_pos he] at hcm; simp at hcm
      · rw [if_neg he] at hcm
        exact Or.inr (Or.inl (List.mem_singleton.mp hcm))
    · exact fun c hcm => ih (fun x hx => hall x (List.mem_cons_of_mem _ hx)) c hcm

/-- The single quote does not occur in the serialization of plain entries. -/
lemma squote_not_mem_serialize (l : List String)
    (hall : ∀ s ∈ l, s.data.all plainChar = true) :
    squote ∉ ('[' :: (serItems l ++ [']'])) := by
  intro hmem
  rcases List.mem_cons.mp hmem with h | h
  · exact absurd h (by decide)
  · rcases List.mem_append.mp h with h | h
    · rcases mem_serItems l hall squote h with h | h | h
      · exact absurd h (by decide)
      · exact absurd h (by decide)
      · exact absurd h (by decide)
    · simp at h
      exact absurd h (by decide)


/-- `dropWhile` leaves a list whose head fails the predicate unchanged. -/
lemma dropWhile_eq_self_of_head (p : Char → Bool) (l : List Char)
    (h : ∀ c, l.head? = some c → p c = false) : l.dropWhile p = l := by
  cases l with
  | nil => rfl
  | cons c cs => rw [List.dropWhile_cons, h c rfl]; simp

/-- Trimming a list with non-whitespace head and last character is the
identity. -/
lemma jsTrimL_id (cs : List Char) (h1 : ∀ c, cs.head? = some c → jsWsChar c = false)
    (h2 : ∀ c, cs.getLast? = some c → jsWsChar c = false) : jsTrimL cs = cs := by
  unfold jsTrimL
  rw [dropWhile_eq_self_of_head _ _ h1]
  rw [dropWhile_eq_self_of_head _ _ (fun c hc => h2 c (by rwa [List.head?_reverse] at hc))]
  exact List.reverse_reverse cs

/-- The anchored start repair does nothing to a text without single quotes. -/
lemma repairListStart_no_squote (cs : List Char) (h : squote ∉ cs) :
    repairListStart cs = cs := by
  unfold repairListStart
  cases hd : cs.dropWhile jsWsChar with
  | nil => rfl
  | cons c r2 =>
    dsimp only
    by_cases hc : c = '['
    · rw [if_pos hc]
      cases hd2 : r2.dropWhile jsWsChar with
      | nil => rfl
      | cons q r4 =>
        dsimp only
        have hq : q ∈ cs := by
          have h1 : q ∈ r2.dropWhile jsWsChar := by
            rw [hd2]; exact List.mem_cons_self q r4
          have h2 : q ∈ r2 := (List.dropWhile_sublist jsWsChar).mem h1
          have h3 : q ∈ cs.dropWhile jsWsChar := by
            rw [hd]; exact List.mem_cons_of_mem c h2
          exact (List.dropWhile_sublist jsWsChar).mem h3
        rw [if_neg (show ¬(q = squote) from fun he => h (he ▸ hq))]
    · rw [if_neg hc]

/-- A global regex replacement whose matcher never fires is the identity. -/
lemma scanReplace_id (m : List Char → Option (List Char × List Char))
    (hm : ∀ cs, squote ∉ cs → m cs = none) :
    ∀ (fuel : Nat) (cs : List Char), squote ∉ cs → scanReplace m fuel cs = cs := by
  intro fuel
  induction fuel with
  | zero => intro cs _; rfl
  | succ f ih =>
    intro cs h
    cases cs with
    | nil => rfl
    | cons c cs2 =>
      rw [scanReplace, hm _ h]
      dsimp only
      rw [ih cs2 (fun hx => h (List.mem_cons_of_mem c hx))]

/-- The mid-list quote matcher needs a single quote. -/
lemma matchMidQuote_none (cs : List Char) (h : squote ∉ cs) : matchMidQuote cs = none := by
  unfold matchMidQuote
  cases cs with
  | nil => rfl
  | cons c1 rest1 =>
    cases rest1 with
    | nil => rfl
    | cons c2 rest =>
      have h2 : c2 ≠ squote :=
        fun he => h (he ▸ List.mem_cons_of_mem c1 (List.mem_cons_self c2 rest))
      simp [h2]

/-- The end-of-list quote matcher needs a single quote. -/
lemma matchEndQuote_none (cs : List Char) (h : squote ∉ cs) : matchEndQuote cs = none := by
  unfold matchEndQuote
  cases cs with
  | nil => rfl
  | cons c rest =>
    have h1 : c ≠ squote := fun he => h (he ▸ List.mem_cons_self c rest)
    simp [h1]

/-- The whole list-mode quote repair does nothing to a text without single
quotes. -/
lemma repairListQuotes_id (cs : List Char) (h : squote ∉ cs) :
    repairListQuotes cs = cs := by
  unfold repairListQuotes
  dsimp only
  rw [repairListStart_no_squote cs h,
    scanReplace_id matchMidQuote matchMidQuote_none cs.length cs h,
    scanReplace_id matchEndQuote matchEndQuote_none cs.length cs h]


/-- `skipWs` leaves a list with non-whitespace head unchanged. -/
lemma skipWs_cons (c : Char) (cs : List Char) (h : jsonWsChar c = false) :
    skipWs (c :: cs) = c :: cs := by
  simp [skipWs, List.dropWhile_cons, h]

/-- The string-body parser recovers a plain string verbatim. -/
lemma parseStringBody_plain : ∀ (s rest : List Char) (fuel : Nat),
    s.all plainChar = true → fuel ≥ s.length + 1 →
    parseStringBody fuel (s ++ '"' :: rest) = some (s, rest) := by
  intro s
  induction s with
  | nil =>
    intro rest fuel _ hf
    cases fuel with
    | zero => exact absurd hf (by simp)
    | succ f => simp [parseStringBody]
  | cons c s ih =>
    intro rest fuel hall hf
    cases fuel with
    | zero => exact absurd hf (by simp)
    | succ f =>
      simp only [List.length_cons] at hf
      obtain ⟨hpc, halls⟩ : plainChar c = true ∧ s.all plainChar = true := by
        simpa using hall
      obtain ⟨h32, hq, hbs, _⟩ := plainChar_spec c hpc
      have hcons : (c :: s) ++ '"' :: rest = c :: (s ++ '"' :: rest) := rfl
      rw [hcons, parseStringBody.eq_def]
      dsimp only
      rw [if_neg hq, if_neg hbs, if_neg (show ¬(c.toNat < 32) by omega)]
      rw [ih rest f halls (by omega)]
      rfl

/-- The value parser recovers a quoted plain string. -/
lemma parseVal_quoted (s rest : List Char) (fuel : Nat) (hall : s.all plainChar = true) :
    parseVal (fuel + 1) ('"' :: (s ++ '"' :: rest)) = some (Json.str (String.mk s), rest) := by
  rw [parseVal, skipWs_cons _ _ (by decide)]
  dsimp only
  rw [if_pos rfl]
  rw [parseStringBody_plain s rest _ hall (by simp)]
  rfl

/-- The array-items parser recovers a non-empty serialized item list. -/
lemma parseItemsWith_plain : ∀ (l : List String) (s : String) (rest : List Char)
    (fI fV : Nat), s.data.all plainChar = true → (∀ x ∈ l, x.data.all plainChar = true) →
    fI ≥ l.length + 1 →
    parseItemsWith (parseVal (fV + 1)) fI (serItems (s :: l) ++ ']' :: rest) =
      some ((s :: l).map Json.str, rest) := by
  intro l
  induction l with
  | nil =>
    intro s rest fI fV hs _ hf
    cases fI with
    | zero => exact absurd hf (by simp)
    | succ f =>
      have hcs : serItems [s] ++ ']' :: rest = '"' :: (s.data ++ '"' :: (']' :: rest)) := by
        rw [serItems, jsonQuoteStr_plain s hs]
        simp [serItems]
      rw [hcs, parseItemsWith, parseVal_quoted s.data (']' :: rest) fV hs]
      simp only [Option.bind_eq_bind, Option.some_bind]
      rw [skipWs_cons _ _ (by decide)]
      rfl
  | cons t l2 ih =>
    intro s rest fI fV hs hall hf
    cases fI with
    | zero => exact absurd hf (by simp)
    | succ f =>
      have hcs : serItems (s :: t :: l2) ++ ']' :: rest =
          '"' :: (s.data ++ '"' :: (',' :: (serItems (t :: l2) ++ ']' :: rest))) := by
        rw [serItems, jsonQuoteStr_plain s hs]
        simp [List.append_assoc]
      rw [hcs, parseItemsWith, parseVal_quoted s.data _ fV hs]
      simp only [Option.bind_eq_bind, Option.some_bind]
      rw [skipWs_cons _ _ (by decide)]
      try dsimp only
      rw [ih t rest f fV (hall t (by simp)) (fun x hx => hall x (by simp [hx]))
        (by simp at hf ⊢; omega)]
      rfl

/-- Serialized items are at least as long as the item list. -/
lemma serItems_length_ge : ∀ l : List String, l.length ≤ (serItems l).length := by
  intro l
  induction l with
  | nil => simp [serItems]
  | cons s rest ih =>
    rw [serItems]
    simp only [List.length_append, jsonQuoteStr, List.length_cons]
    omega

/-- `JSON.parse` of the serialization of a plain string array. -/
lemma jsonParse_serializeArr (l : List String)
    (hall : ∀ s ∈ l, s.data.all plainChar = true) :
    jsonParse (serializeJsonArray l) = some (Json.arr (l.map Json.str)) := by
  cases l with
  | nil => rfl
  | cons s l2 =>
    unfold jsonParse serializeJsonArray
    show (match parseVal (('[' :: (serItems (s :: l2) ++ [']'])).length + 1)
        ('[' :: (serItems (s :: l2) ++ [']'])) with
      | some (v, rest) => if (skipWs rest).isEmpty then some v else none
      | none => none) = some (Json.arr ((s :: l2).map Json.str))
    rw [parseVal, skipWs_cons _ _ (by decide)]
    dsimp only
    rw [if_neg (by decide), if_pos rfl]
    obtain ⟨X, hX⟩ : ∃ X, serItems (s :: l2) = '"' :: X := by
      rw [serItems, jsonQuoteStr_plain s (hall s (by simp))]
      exact ⟨((s.data ++ ['"']) ++ (if l2.isEmpty then [] else [','])) ++ serItems l2,
        by simp [List.cons_append]⟩
    have hc1 : serItems (s :: l2) ++ [']'] = '"' :: (X ++ [']']) := by
      rw [hX]; rfl
    rw [hc1, skipWs_cons _ _ (by decide)]
    dsimp only
    rw [← hc1]
    rw [show ('[' :: (serItems (s :: l2) ++ [']'])).length =
        ((serItems (s :: l2)).length + 1) + 1 by simp]
    have hge := serItems_length_ge (s :: l2)
    rw [parseItemsWith_plain l2 s [] _ _ (hall s (by simp))
      (fun x hx => hall x (by simp [hx])) (by simp at hge ⊢; omega)]
    rfl


/-- Unpacking `plainEntry`. -/
lemma plainEntry_parts (s : String) (h : plainEntry s = true) :
    s.data ≠ [] ∧ s.data.all plainChar = true ∧
    (∀ c, s.data.head? = some c → jsWsChar c = false) ∧
    (∀ c, s.data.getLast? = some c → jsWsChar c = false) := by
  simp only [plainEntry, Bool.and_eq_true] at h
  obtain ⟨⟨⟨hne, hall⟩, hh⟩, hl⟩ := h
  refine ⟨by simpa using hne, hall, ?_, ?_⟩
  · intro c hc
    rw [hc] at hh
    simpa using hh
  · intro c hc
    rw [hc] at hl
    simpa using hl

/-- Plain entries are unchanged by `trim`. -/
lemma jsTrim_plain (s : String) (h : plainEntry s = true) : jsTrim s = s := by
  obtain ⟨_, _, hh, hl⟩ := plainEntry_parts s h
  unfold jsTrim
  rw [jsTrimL_id s.data hh hl]

/-- The list-mode normalizer recovers a plain string array from its JSON
serialization: the text is bracket-delimited, the quote repair does nothing,
the parse succeeds, and trimming and filtering are the identity. -/
lemma normalizeToList_serialize (l : List String) (hp : ∀ s ∈ l, plainEntry s = true) :
    normalizeToList (serializeJsonArray l) = l := by
  have hall : ∀ s ∈ l, s.data.all plainChar = true :=
    fun s hs => (plainEntry_parts s (hp s hs)).2.1
  have hnosq : squote ∉ ('[' :: (serItems l ++ [']'])) := squote_not_mem_serialize l hall
  have htext : serializeJsonArray l ≠ "" := by
    intro he
    have hd : (serializeJsonArray l).data = [] := by rw [he]
    simp [serializeJsonArray] at hd
  have hdata : (serializeJsonArray l).data = '[' :: (serItems l ++ [']']) := rfl
  have hlast : ('[' :: (serItems l ++ [']'])).getLast? = some ']' := by
    rw [show ('[' :: (serItems l ++ [']'])) = ('[' :: serItems l) ++ [']'] by simp]
    exact List.getLast?_concat _
  have hhead1 : ∀ c, ('[' :: (serItems l ++ [']'])).head? = some c → jsWsChar c = false := by
    intro c hc
    simp only [List.head?_cons, Option.some.injEq] at hc
    subst hc
    decide
  have hlastok : ∀ c, ('[' :: (serItems l ++ [']'])).getLast? = some c → jsWsChar c = false := by
    intro c hc
    rw [hlast] at hc
    injection hc with hc
    subst hc
    decide
  have htrimS : jsTrim (serializeJsonArray l) = serializeJsonArray l := by
    unfold jsTrim
    rw [hdata, jsTrimL_id _ hhead1 hlastok]
    rfl
  unfold normalizeToList
  rw [if_neg htext]
  dsimp only
  rw [htrimS, hdata]
  try dsimp only
  have hend : endsWithChar ']' ('[' :: (serItems l ++ [']'])) = true := by
    unfold endsWithChar
    rw [hlast]
    decide
  have hcond : (startsWithL ('[' :: (serItems l ++ [']'])) ['['] &&
      endsWithChar ']' ('[' :: (serItems l ++ [']'])) ||
      startsWithL ('[' :: (serItems l ++ [']'])) ['['] &&
      ('[' :: (serItems l ++ [']'])).contains ']') = true := by
    rw [hend]
    simp [startsWithL]
  rw [if_pos hcond]
  rw [repairListQuotes_id _ hnosq]
  have hparse : jsonParse (String.mk ('[' :: (serItems l ++ [']']))) =
      some (Json.arr (l.map Json.str)) := jsonParse_serializeArr l hall
  rw [hparse]
  dsimp only
  rw [List.map_map]
  have hpt : ∀ s ∈ l,
      ((fun x => jsTrim (jsToStringF (('[' :: (serItems l ++ [']'])).length + 1) x))
        ∘ Json.str) s = s :=
    fun s hs => jsTrim_plain s (hp s hs)
  rw [List.map_congr_left hpt, List.map_id']
  refine List.filter_eq_self.mpr ?_
  intro a ha
  have := (plainEntry_parts a (hp a ha)).1
  simpa using this

/-! ## Parser consumption and replay (towards every well-formed array text)

`jsonParse` is whitespace-tolerant and handles escape sequences, so the C8
claim ranges over more texts than the canonical serialization.  The lemmas
below show that a successful parse of a string array consumes a whitespace-
delimited core whose parse result does not depend on what follows it, carries
no single quote when the parsed strings do not, and is exactly what
`String.prototype.trim` leaves of the text. -/

/-- The head of a `dropWhile` result falsifies the predicate. -/
lemma dropWhile_head_false (p : Char → Bool) :
    ∀ (l : List Char) (c : Char) (t : List Char), l.dropWhile p = c :: t → p c = false := by
  intro l
  induction l with
  | nil => intro c t h; simp at h
  | cons a l2 ih =>
    intro c t h
    rw [List.dropWhile_cons] at h
    by_cases ha : p a = true
    · rw [if_pos ha] at h
      exact ih c t h
    · rw [if_neg ha] at h
      injection h with h1 _
      subst h1
      simpa using ha

/-- Dropping over an all-satisfying prefix continues on the remainder. -/
lemma dropWhile_append_all (p : Char → Bool) :
    ∀ (a b : List Char), (∀ c ∈ a, p c = true) → List.dropWhile p (a ++ b) = List.dropWhile p b := by
  intro a
  induction a with
  | nil => intro b _; rfl
  | cons x a2 ih =>
    intro b h
    rw [List.cons_append, List.dropWhile_cons, if_pos (h x (by simp))]
    exact ih b fun c hc => h c (by simp [hc])

/-- JSON whitespace is JavaScript whitespace. -/
lemma jsonWs_is_jsWs (c : Char) (h : jsonWsChar c = true) : jsWsChar c = true := by
  simp only [jsonWsChar, Bool.or_eq_true, decide_eq_true_eq] at h
  rcases h with ((h | h) | h) | h <;> subst h <;> decide

/-- JSON whitespace is never a single quote. -/
lemma jsonWs_ne_squote (c : Char) (h : jsonWsChar c = true) : c ≠ squote := by
  simp only [jsonWsChar, Bool.or_eq_true, decide_eq_true_eq] at h
  rcases h with ((h | h) | h) | h <;> subst h <;> decide

/-- `parseNumber` only ever produces a number value. -/
lemma parseNumber_shape (cs : List Char) (v : Json) (rest : List Char)
    (h : parseNumber cs = some (v, rest)) : ∃ lex, v = Json.num lex := by
  unfold parseNumber at h
  rcases hl : parseNumberLex cs with _ | p <;> rw [hl] at h
  · simp at h
  · simp only [Option.map_some'] at h
    injection h with h
    injection h with h1 _
    exact ⟨String.mk p.1, h1.symm⟩

/-- Frame property of the string-body parser: the parse consumes a prefix,
re-parses identically in front of any tail, and contains a single quote only
if the parsed content does (escape markers are never single quotes). -/
lemma parseStringBody_frame : ∀ (fuel : Nat) (cs s rest : List Char),
    parseStringBody fuel cs = some (s, rest) →
    ∃ pre, cs = pre ++ rest ∧ (squote ∈ pre → squote ∈ s) ∧
      ∀ (tail : List Char) (f2 : Nat), f2 ≥ pre.length + 1 →
        parseStringBody f2 (pre ++ tail) = some (s, tail) := by
  intro fuel
  induction fuel with
  | zero => intro cs s rest h; simp [parseStringBody] at h
  | succ f ih =>
    intro cs s rest h
    cases cs with
    | nil => simp [parseStringBody] at h
    | cons c cs1 =>
      rw [parseStringBody.eq_def] at h
      dsimp only at h
      by_cases hq : c = '"'
      · rw [if_pos hq] at h
        injection h with h
        injection h with h1 h2
        subst h1
        subst h2
        refine ⟨[c], by simp, ?_, ?_⟩
        · intro hmem
          rw [hq] at hmem
          simp only [List.mem_singleton] at hmem
          exact absurd hmem (by decide)
        · intro tail f2 hf2
          obtain ⟨f3, rfl⟩ : ∃ f3, f2 = f3 + 1 := ⟨f2 - 1, by omega⟩
          rw [List.singleton_append, parseStringBody.eq_def]
          dsimp only
          rw [if_pos hq]
      · rw [if_neg hq] at h
        by_cases hb : c = bslash
        · rw [if_pos hb] at h
          cases cs1 with
          | nil => simp at h
          | cons e cs2 =>
            dsimp only at h
            by_cases hu : e = 'u'
            · rw [if_pos hu] at h
              rcases cs2 with _ | ⟨a, _ | ⟨b, _ | ⟨c2, _ | ⟨d, cs3⟩⟩⟩⟩
              · simp at h
              · simp at h
              · simp at h
              · simp at h
              · dsimp only at h
                by_cases hhex : (isHexChar a && isHexChar b && isHexChar c2 && isHexChar d) = true
                · rw [if_pos hhex] at h
                  rcases hps : parseStringBody f cs3 with _ | ⟨s2, rest2⟩
                  · rw [hps] at h; simp at h
                  · rw [hps] at h
                    simp only [Option.map_some'] at h
                    injection h with h
                    injection h with h1 h2
                    subst h2
                    obtain ⟨pre2, hpre2, hsq2, hrep2⟩ := ih cs3 s2 rest2 hps
                    refine ⟨c :: e :: a :: b :: c2 :: d :: pre2, by simp [hpre2], ?_, ?_⟩
                    · intro hmem
                      simp only [List.mem_cons] at hmem
                      simp only [Bool.and_eq_true] at hhex
                      rcases hmem with hx | hx | hx | hx | hx | hx | hx
                      · exact absurd hx.symm (by rw [hb]; decide)
                      · exact absurd hx.symm (by rw [hu]; decide)
                      · have hz := hhex.1.1.1
                        rw [← hx] at hz
                        exact absurd hz (by decide)
                      · have hz := hhex.1.1.2
                        rw [← hx] at hz
                        exact absurd hz (by decide)
                      · have hz := hhex.1.2
                        rw [← hx] at hz
                        exact absurd hz (by decide)
                      · have hz := hhex.2
                        rw [← hx] at hz
                        exact absurd hz (by decide)
                      · subst h1; simp [hsq2 hx]
                    · intro tail f2 hf2
                      obtain ⟨f3, rfl⟩ : ∃ f3, f2 = f3 + 1 := ⟨f2 - 1, by omega⟩
                      have hsh : (c :: e :: a :: b :: c2 :: d :: pre2) ++ tail =
                          c :: e :: a :: b :: c2 :: d :: (pre2 ++ tail) := by simp
                      rw [hsh, parseStringBody.eq_def]
                      dsimp only
                      rw [if_neg hq, if_pos hb, if_pos hu, if_pos hhex]
                      rw [hrep2 tail f3 (by simp at hf2; omega)]
                      subst h1
                      rfl
                · rw [if_neg hhex] at h; simp at h
            · rw [if_neg hu] at h
              rcases hesc : escChar e with _ | ch
              · rw [hesc] at h
                simp at h
              · rw [hesc] at h
                dsimp only at h
                rcases hps : parseStringBody f cs2 with _ | ⟨s2, rest2⟩
                · rw [hps] at h; simp at h
                · rw [hps] at h
                  simp only [Option.map_some'] at h
                  injection h with h
                  injection h with h1 h2
                  subst h2
                  obtain ⟨pre2, hpre2, hsq2, hrep2⟩ := ih cs2 s2 rest2 hps
                  have hens : e ≠ squote := by
                    intro he
                    rw [he] at hesc
                    rw [show escChar squote = none by decide] at hesc
                    exact Option.noConfusion hesc
                  refine ⟨c :: e :: pre2, by simp [hpre2], ?_, ?_⟩
                  · intro hmem
                    simp only [List.mem_cons] at hmem
                    rcases hmem with hx | hx | hx
                    · exact absurd hx.symm (by rw [hb]; decide)
                    · exact absurd hx.symm hens
                    · subst h1; simp [hsq2 hx]
                  · intro tail f2 hf2
                    obtain ⟨f3, rfl⟩ : ∃ f3, f2 = f3 + 1 := ⟨f2 - 1, by omega⟩
                    have hsh : (c :: e :: pre2) ++ tail = c :: e :: (pre2 ++ tail) := by simp
                    rw [hsh, parseStringBody.eq_def]
                    dsimp only
                    rw [if_neg hq, if_pos hb, if_neg hu, hesc]
                    dsimp only
                    rw [hrep2 tail f3 (by simp at hf2; omega)]
                    subst h1
                    rfl
        · rw [if_neg hb] at h
          by_cases hlt : c.toNat < 32
          · rw [if_pos hlt] at h; simp at h
          · rw [if_neg hlt] at h
            rcases hps : parseStringBody f cs1 with _ | ⟨s2, rest2⟩
            · rw [hps] at h; simp at h
            · rw [hps] at h
              simp only [Option.map_some'] at h
              injection h with h
              injection h with h1 h2
              subst h2
              obtain ⟨pre2, hpre2, hsq2, hrep2⟩ := ih cs1 s2 rest2 hps
              refine ⟨c :: pre2, by simp [hpre2], ?_, ?_⟩
              · intro hmem
                simp only [List.mem_cons] at hmem
                rcases hmem with hx | hx
                · subst h1; simp [← hx]
                · subst h1; simp [hsq2 hx]
              · intro tail f2 hf2
                obtain ⟨f3, rfl⟩ : ∃ f3, f2 = f3 + 1 := ⟨f2 - 1, by omega⟩
                rw [List.cons_append, parseStringBody.eq_def]
                dsimp only
                rw [if_neg hq, if_neg hb, if_neg hlt]
                rw [hrep2 tail f3 (by simp at hf2; omega)]
                subst h1
                rfl

/-- `skipWs` jumps an all-whitespace prefix and stops at a non-whitespace
character. -/
lemma skipWs_append_ws (a : List Char) (c : Char) (b : List Char)
    (ha : ∀ x ∈ a, jsonWsChar x = true) (hc : jsonWsChar c = false) :
    skipWs (a ++ c :: b) = c :: b := by
  unfold skipWs
  rw [dropWhile_append_all jsonWsChar a (c :: b) ha, List.dropWhile_cons, hc]
  simp

/-- Frame property of the value parser at a string result: the parse consumes
leading whitespace, an opening quote and the string body exactly, replays in
front of any tail at any fuel, and the consumed body carries a single quote
only if the parsed string does. -/
lemma pv_str_frame (f : Nat) (cs : List Char) (sv : String) (rest : List Char)
    (h : parseVal (f + 1) cs = some (Json.str sv, rest)) :
    ∃ ws1 body, cs = (ws1 ++ '"' :: body) ++ rest ∧
      (∀ c ∈ ws1, jsonWsChar c = true) ∧
      (squote ∈ body → squote ∈ sv.data) ∧
      ∀ (tail : List Char) (f2 : Nat),
        parseVal (f2 + 1) ((ws1 ++ '"' :: body) ++ tail) = some (Json.str sv, tail) := by
  have hdec : cs.takeWhile jsonWsChar ++ skipWs cs = cs :=
    List.takeWhile_append_dropWhile jsonWsChar cs
  rw [parseVal.eq_def] at h
  dsimp only at h
  rcases hsk : skipWs cs with _ | ⟨c, cs1⟩ <;> rw [hsk] at h
  · simp at h
  · dsimp only at h
    by_cases hq : c = '"'
    · rw [if_pos hq] at h
      rcases hps : parseStringBody (cs1.length + 1) cs1 with _ | ⟨s1, r1⟩ <;> rw [hps] at h
      · simp at h
      · simp only [Option.map_some'] at h
        injection h with h
        injection h with h1 h2
        injection h1 with h1
        subst h2
        obtain ⟨preb, hpreb, hsqb, hrepb⟩ := parseStringBody_frame _ _ _ _ hps
        refine ⟨cs.takeWhile jsonWsChar, preb, ?_, fun x hx => List.mem_takeWhile_imp hx,
          ?_, ?_⟩
        · conv_lhs => rw [← hdec]
          rw [hsk, hq, hpreb]
          simp
        · intro hmem
          rw [← h1]
          exact hsqb hmem
        · intro tail f2
          rw [show (cs.takeWhile jsonWsChar ++ '"' :: preb) ++ tail =
            cs.takeWhile jsonWsChar ++ '"' :: (preb ++ tail) by simp]
          rw [parseVal.eq_def]
          dsimp only
          rw [skipWs_append_ws _ _ _ (fun x hx => List.mem_takeWhile_imp hx) (by decide)]
          dsimp only
          rw [if_pos rfl]
          rw [hrepb tail ((preb ++ tail).length + 1)
            (by simp only [List.length_append]; omega)]
          rw [← h1]
          rfl
    · rw [if_neg hq] at h
      by_cases hbr : c = '['
      · rw [if_pos hbr] at h
        rcases hsk2 : skipWs cs1 with _ | ⟨d, r⟩ <;> rw [hsk2] at h
        · simp at h
        · dsimp only at h
          by_cases hd : d = ']'
          · rw [if_pos hd] at h
            simp at h
          · rw [if_neg hd] at h
            rcases hit : parseItemsWith (parseVal f) f (d :: r) with _ | ⟨vs, r2⟩ <;>
              rw [hit] at h
            · simp at h
            · simp at h
      · rw [if_neg hbr] at h
        by_cases hbc : c = Char.ofNat 123
        · rw [if_pos hbc] at h
          rcases hsk2 : skipWs cs1 with _ | ⟨d, r⟩ <;> rw [hsk2] at h
          · simp at h
          · dsimp only at h
            by_cases hd : d = Char.ofNat 125
            · rw [if_pos hd] at h
              simp at h
            · rw [if_neg hd] at h
              rcases hms : parseMembersWith (parseVal f) f cs1 with _ | ⟨ms, r2⟩ <;>
                rw [hms] at h
              · simp at h
              · simp at h
        · rw [if_neg hbc] at h
          by_cases hlt : c = 't'
          · rw [if_pos hlt] at h
            split at h <;> simp at h
          · rw [if_neg hlt] at h
            by_cases hlf : c = 'f'
            · rw [if_pos hlf] at h
              split at h <;> simp at h
            · rw [if_neg hlf] at h
              by_cases hln : c = 'n'
              · rw [if_pos hln] at h
                split at h <;> simp at h
              · rw [if_neg hln] at h
                obtain ⟨lex, hlex⟩ := parseNumber_shape _ _ _ h
                exact Json.noConfusion hlex

/-- Frame property of the array-items parser when every parsed element is a
string: the items consume a chunk ending at the closing bracket, replay in
front of any tail at any sufficient fuel, and carry a single quote only if
one of the parsed strings does. -/
lemma items_str_frame : ∀ (fI fV : Nat) (cs : List Char) (l : List String) (rest : List Char),
    parseItemsWith (parseVal (fV + 1)) fI cs = some (l.map Json.str, rest) →
    ∃ pre, cs = pre ++ rest ∧ pre ≠ [] ∧ pre.getLast? = some ']' ∧
      l.length + 1 ≤ pre.length ∧ l ≠ [] ∧
      (squote ∈ pre → ∃ s ∈ l, squote ∈ s.data) ∧
      ∀ (tail : List Char) (fI2 fV2 : Nat), l.length ≤ fI2 →
        parseItemsWith (parseVal (fV2 + 1)) fI2 (pre ++ tail) = some (l.map Json.str, tail) := by
  intro fI
  induction fI with
  | zero => intro fV cs l rest h; simp [parseItemsWith] at h
  | succ f ih =>
    intro fV cs l rest h
    rw [parseItemsWith.eq_def] at h
    dsimp only at h
    rcases hv : parseVal (fV + 1) cs with _ | ⟨v, rest0⟩ <;> rw [hv] at h
    · simp at h
    · simp only [Option.bind_eq_bind, Option.some_bind] at h
      have hdec0 : rest0.takeWhile jsonWsChar ++ skipWs rest0 = rest0 :=
        List.takeWhile_append_dropWhile jsonWsChar rest0
      rcases hsk : skipWs rest0 with _ | ⟨m, r2⟩ <;> rw [hsk] at h
      · simp at h
      · dsimp only at h
        by_cases hm : m = ','
        · rw [if_pos hm] at h
          subst hm
          rcases hrec : parseItemsWith (parseVal (fV + 1)) f r2 with _ | ⟨vs2, r3⟩ <;>
            rw [hrec] at h
          · simp at h
          · simp only [Option.bind_eq_bind, Option.some_bind, Option.pure_def,
              Option.some.injEq, Prod.mk.injEq] at h
            obtain ⟨h1, h2⟩ := h
            subst h2
            cases l with
            | nil => simp at h1
            | cons s l2 =>
              rw [List.map_cons] at h1
              injection h1 with h1a h1b
              subst h1a
              subst h1b
              obtain ⟨ws1, body, hcs, hws1, hsqv, hrep_v⟩ := pv_str_frame fV cs s rest0 hv
              obtain ⟨pre2, hpre2, hne2, hlast2, hlen2, _, hsq2, hrep2⟩ :=
                ih fV r2 l2 r3 hrec
              obtain ⟨wsm, hwsm, hwsmP⟩ :
                  ∃ w, rest0 = w ++ (',' :: r2) ∧ ∀ x ∈ w, jsonWsChar x = true :=
                ⟨rest0.takeWhile jsonWsChar,
                  by (conv_lhs => rw [← hdec0]); rw [hsk],
                  fun x hx => List.mem_takeWhile_imp hx⟩
              refine ⟨(ws1 ++ '"' :: body) ++ (wsm ++ ',' :: pre2),
                ?_, by simp, ?_, ?_, by simp, ?_, ?_⟩
              · rw [hcs, hwsm, hpre2]
                simp
              · rw [List.getLast?_append_of_ne_nil _ (by simp)]
                rw [List.getLast?_append_of_ne_nil _ (by simp)]
                rw [show (',' :: pre2) = [','] ++ pre2 by rfl]
                rw [List.getLast?_append_of_ne_nil _ hne2]
                exact hlast2
              · simp only [List.length_append, List.length_cons, List.length_nil]
                omega
              · intro hmem
                rcases List.mem_append.mp hmem with hL | hR
                · rcases List.mem_append.mp hL with h3 | h3
                  · exact absurd rfl (jsonWs_ne_squote squote (hws1 squote h3))
                  · rcases List.mem_cons.mp h3 with h4 | h4
                    · exact absurd h4 (by decide)
                    · exact ⟨s, by simp, hsqv h4⟩
                · rcases List.mem_append.mp hR with h3 | h3
                  · exact absurd rfl (jsonWs_ne_squote squote (hwsmP squote h3))
                  · rcases List.mem_cons.mp h3 with h4 | h4
                    · exact absurd h4 (by decide)
                    · obtain ⟨x, hx, hxs⟩ := hsq2 h4
                      exact ⟨x, by simp [hx], hxs⟩
              · intro tail fI2 fV2 hf
                simp only [List.length_cons] at hf
                obtain ⟨fI3, rfl⟩ : ∃ fI3, fI2 = fI3 + 1 := ⟨fI2 - 1, by omega⟩
                rw [show ((ws1 ++ '"' :: body) ++ (wsm ++ ',' :: pre2))
                    ++ tail = (ws1 ++ '"' :: body) ++
                    (wsm ++ ',' :: (pre2 ++ tail)) by simp]
                rw [parseItemsWith.eq_def]
                dsimp only
                rw [hrep_v (wsm ++ ',' :: (pre2 ++ tail)) fV2]
                simp only [Option.bind_eq_bind, Option.some_bind]
                rw [skipWs_append_ws _ _ _ hwsmP (by decide)]
                dsimp only
                rw [if_pos rfl]
                rw [hrep2 tail fI3 fV2 (by omega)]
                simp only [Option.bind_eq_bind, Option.some_bind]
                rfl
        · rw [if_neg hm] at h
          by_cases hm2 : m = ']'
          · rw [if_pos hm2] at h
            subst hm2
            simp only [Option.pure_def, Option.some.injEq, Prod.mk.injEq] at h
            obtain ⟨h1, h2⟩ := h
            subst h2
            cases l with
            | nil => simp at h1
            | cons s l2 =>
              rw [List.map_cons] at h1
              injection h1 with h1a h1b
              subst h1a
              have hl2 : l2 = [] := List.map_eq_nil_iff.mp h1b.symm
              subst hl2
              obtain ⟨ws1, body, hcs, hws1, hsqv, hrep_v⟩ := pv_str_frame fV cs s rest0 hv
              obtain ⟨wsm, hwsm, hwsmP⟩ :
                  ∃ w, rest0 = w ++ (']' :: r2) ∧ ∀ x ∈ w, jsonWsChar x = true :=
                ⟨rest0.takeWhile jsonWsChar,
                  by (conv_lhs => rw [← hdec0]); rw [hsk],
                  fun x hx => List.mem_takeWhile_imp hx⟩
              refine ⟨(ws1 ++ '"' :: body) ++ (wsm ++ [']']),
                ?_, by simp, ?_, ?_, by simp, ?_, ?_⟩
              · rw [hcs, hwsm]
                simp
              · rw [List.getLast?_append_of_ne_nil _ (by simp)]
                rw [List.getLast?_append_of_ne_nil _ (by simp)]
                rfl
              · simp only [List.length_append, List.length_cons, List.length_nil]
                omega
              · intro hmem
                rcases List.mem_append.mp hmem with hL | hR
                · rcases List.mem_append.mp hL with h3 | h3
                  · exact absurd rfl (jsonWs_ne_squote squote (hws1 squote h3))
                  · rcases List.mem_cons.mp h3 with h4 | h4
                    · exact absurd h4 (by decide)
                    · exact ⟨s, by simp, hsqv h4⟩
                · rcases List.mem_append.mp hR with h3 | h3
                  · exact absurd rfl (jsonWs_ne_squote squote (hwsmP squote h3))
                  · rcases List.mem_cons.mp h3 with h4 | h4
                    · exact absurd h4 (by decide)
                    · simp at h4
              · intro tail fI2 fV2 hf
                simp only [List.length_cons] at hf
                obtain ⟨fI3, rfl⟩ : ∃ fI3, fI2 = fI3 + 1 := ⟨fI2 - 1, by omega⟩
                rw [show ((ws1 ++ '"' :: body) ++ (wsm ++ [']']))
                    ++ tail = (ws1 ++ '"' :: body) ++
                    (wsm ++ ']' :: tail) by simp]
                rw [parseItemsWith.eq_def]
                dsimp only
                rw [hrep_v (wsm ++ ']' :: tail) fV2]
                simp only [Option.bind_eq_bind, Option.some_bind]
                rw [skipWs_append_ws _ _ _ hwsmP (by decide)]
                dsimp only
                rw [if_neg (by decide), if_pos rfl]
                rfl
          · rw [if_neg hm2] at h
            simp at h

/-- Frame property of the value parser at an array-of-strings result: the
parse consumes leading whitespace plus a bracketed core that ends at the
closing bracket, replays in front of any tail at any sufficient fuel, and
carries a single quote only if one of the parsed strings does. -/
lemma pv_arr_str_frame (f : Nat) (cs : List Char) (l : List String) (rest : List Char)
    (h : parseVal (f + 1) cs = some (Json.arr (l.map Json.str), rest)) :
    ∃ ws1 core, cs = (ws1 ++ core) ++ rest ∧
      (∀ c ∈ ws1, jsonWsChar c = true) ∧
      (∃ core2, core = '[' :: core2) ∧
      core.getLast? = some ']' ∧
      l.length + 2 ≤ core.length ∧
      (squote ∈ core → ∃ s ∈ l, squote ∈ s.data) ∧
      ∀ (tail : List Char) (f2 : Nat), l.length + 1 ≤ f2 →
        parseVal (f2 + 1) (core ++ tail) = some (Json.arr (l.map Json.str), tail) := by
  have hdec : cs.takeWhile jsonWsChar ++ skipWs cs = cs :=
    List.takeWhile_append_dropWhile jsonWsChar cs
  have hws1 : ∀ x ∈ cs.takeWhile jsonWsChar, jsonWsChar x = true :=
    fun x hx => List.mem_takeWhile_imp hx
  rw [parseVal.eq_def] at h
  dsimp only at h
  rcases hsk : skipWs cs with _ | ⟨c, cs1⟩ <;> rw [hsk] at h
  · simp at h
  · dsimp only at h
    by_cases hq : c = '"'
    · rw [if_pos hq] at h
      rcases hps : parseStringBody (cs1.length + 1) cs1 with _ | ⟨s1, r1⟩ <;> rw [hps] at h
      · simp at h
      · simp at h
    · rw [if_neg hq] at h
      by_cases hbr : c = '['
      · rw [if_pos hbr] at h
        subst hbr
        have hdec1 : cs1.takeWhile jsonWsChar ++ skipWs cs1 = cs1 :=
          List.takeWhile_append_dropWhile jsonWsChar cs1
        rcases hsk2 : skipWs cs1 with _ | ⟨d, r⟩ <;> rw [hsk2] at h
        · simp at h
        · dsimp only at h
          have hdws : jsonWsChar d = false := dropWhile_head_false jsonWsChar cs1 d r hsk2
          obtain ⟨ws2, hws2eq, hws2P⟩ :
              ∃ w, cs1 = w ++ (d :: r) ∧ ∀ x ∈ w, jsonWsChar x = true :=
            ⟨cs1.takeWhile jsonWsChar,
              by (conv_lhs => rw [← hdec1]); rw [hsk2],
              fun x hx => List.mem_takeWhile_imp hx⟩
          by_cases hd : d = ']'
          · rw [if_pos hd] at h
            subst hd
            injection h with h
            injection h with h1 h2
            subst h2
            injection h1 with h1
            have hl : l = [] := List.map_eq_nil_iff.mp h1.symm
            subst hl
            refine ⟨cs.takeWhile jsonWsChar, '[' :: (ws2 ++ [']']), ?_, hws1,
              ⟨ws2 ++ [']'], rfl⟩, ?_, ?_, ?_, ?_⟩
            · conv_lhs => rw [← hdec]
              rw [hsk, hws2eq]
              simp
            · rw [show '[' :: (ws2 ++ [']']) = ('[' :: ws2) ++ [']'] by simp]
              exact List.getLast?_concat _
            · simp only [List.length_cons, List.length_append, List.length_nil]
              omega
            · intro hmem
              rcases List.mem_cons.mp hmem with h3 | h3
              · exact absurd h3 (by decide)
              · rcases List.mem_append.mp h3 with h4 | h4
                · exact absurd rfl (jsonWs_ne_squote squote (hws2P squote h4))
                · simp only [List.mem_singleton] at h4
                  exact absurd h4 (by decide)
            · intro tail f2 hf2
              rw [show ('[' :: (ws2 ++ [']'])) ++ tail = '[' :: (ws2 ++ ']' :: tail) by simp]
              rw [parseVal.eq_def]
              dsimp only
              rw [skipWs_cons _ _ (by decide)]
              dsimp only
              rw [if_neg (by decide), if_pos rfl]
              rw [skipWs_append_ws _ _ _ hws2P (by decide)]
              dsimp only
              rw [if_pos rfl]
              rfl
          · rw [if_neg hd] at h
            rcases hit : parseItemsWith (parseVal f) f (d :: r) with _ | ⟨vs, r2⟩ <;>
              rw [hit] at h
            · simp at h
            · simp only [Option.map_some'] at h
              injection h with h
              injection h with h1 h2
              subst h2
              injection h1 with h1
              subst h1
              cases f with
              | zero => simp [parseItemsWith] at hit
              | succ fV =>
                obtain ⟨pre_i, hpre_i, hne_i, hlast_i, hlen_i, _, hsq_i, hrep_i⟩ :=
                  items_str_frame (fV + 1) fV (d :: r) l r2 hit
                obtain ⟨pre_t, hpt⟩ : ∃ pt, pre_i = d :: pt := by
                  cases pre_i with
                  | nil => exact absurd rfl hne_i
                  | cons p pt =>
                    rw [List.cons_append] at hpre_i
                    injection hpre_i with hpd _
                    exact ⟨pt, by rw [← hpd]⟩
                refine ⟨cs.takeWhile jsonWsChar, '[' :: (ws2 ++ pre_i), ?_, hws1,
                  ⟨ws2 ++ pre_i, rfl⟩, ?_, ?_, ?_, ?_⟩
                · conv_lhs => rw [← hdec]
                  rw [hsk, hws2eq, hpre_i]
                  simp
                · rw [show '[' :: (ws2 ++ pre_i) = ('[' :: ws2) ++ pre_i by simp]
                  rw [List.getLast?_append_of_ne_nil _ hne_i]
                  exact hlast_i
                · simp only [List.length_cons, List.length_append]
                  omega
                · intro hmem
                  rcases List.mem_cons.mp hmem with h3 | h3
                  · exact absurd h3 (by decide)
                  · rcases List.mem_append.mp h3 with h4 | h4
                    · exact absurd rfl (jsonWs_ne_squote squote (hws2P squote h4))
                    · exact hsq_i h4
                · intro tail f2 hf2
                  obtain ⟨f3, rfl⟩ : ∃ f3, f2 = f3 + 1 := ⟨f2 - 1, by omega⟩
                  rw [show ('[' :: (ws2 ++ pre_i)) ++ tail = '[' :: (ws2 ++ (pre_i ++ tail))
                    by simp]
                  rw [parseVal.eq_def]
                  dsimp only
                  rw [skipWs_cons _ _ (by decide)]
                  dsimp only
                  rw [if_neg (by decide), if_pos rfl]
                  rw [show pre_i ++ tail = d :: (pre_t ++ tail) by rw [hpt, List.cons_append]]
                  rw [skipWs_append_ws _ _ _ hws2P hdws]
                  dsimp only
                  rw [if_neg hd]
                  rw [show d :: (pre_t ++ tail) = pre_i ++ tail by rw [hpt, List.cons_append]]
                  rw [hrep_i tail (f3 + 1) f3 (by omega)]
                  rfl
      · rw [if_neg hbr] at h
        by_cases hbc : c = Char.ofNat 123
        · rw [if_pos hbc] at h
          rcases hsk2 : skipWs cs1 with _ | ⟨d, r⟩ <;> rw [hsk2] at h
          · simp at h
          · dsimp only at h
            by_cases hd : d = Char.ofNat 125
            · rw [if_pos hd] at h
              simp at h
            · rw [if_neg hd] at h
              rcases hms : parseMembersWith (parseVal f) f cs1 with _ | ⟨ms, r2⟩ <;>
                rw [hms] at h
              · simp at h
              · simp at h
        · rw [if_neg hbc] at h
          by_cases hlt : c = 't'
          · rw [if_pos hlt] at h
            split at h <;> simp at h
          · rw [if_neg hlt] at h
            by_cases hlf : c = 'f'
            · rw [if_pos hlf] at h
              split at h <;> simp at h
            · rw [if_neg hlf] at h
              by_cases hln : c = 'n'
              · rw [if_pos hln] at h
                split at h <;> simp at h
              · rw [if_neg hln] at h
                obtain ⟨lex, hlex⟩ := parseNumber_shape _ _ _ h
                exact Json.noConfusion hlex

/-- Trimming whitespace around a core with non-whitespace boundary characters
recovers the core. -/
lemma jsTrimL_outer (ws1 core rest : List Char)
    (h1 : ∀ c ∈ ws1, jsWsChar c = true) (h2 : ∀ c ∈ rest, jsWsChar c = true)
    (hh : ∃ c2, core = '[' :: c2) (hl : core.getLast? = some ']') :
    jsTrimL ((ws1 ++ core) ++ rest) = core := by
  obtain ⟨core2, rfl⟩ := hh
  obtain ⟨c0, hc0⟩ := List.getLast?_eq_some_iff.mp hl
  unfold jsTrimL
  rw [show (ws1 ++ '[' :: core2) ++ rest = ws1 ++ (('[' :: core2) ++ rest) by simp]
  rw [dropWhile_append_all jsWsChar ws1 _ h1]
  rw [show ('[' :: core2) ++ rest = '[' :: (core2 ++ rest) by rw [List.cons_append]]
  rw [dropWhile_eq_self_of_head jsWsChar ('[' :: (core2 ++ rest)) (by
    intro c hc
    simp only [List.head?_cons, Option.some.injEq] at hc
    subst hc
    decide)]
  rw [show '[' :: (core2 ++ rest) = ('[' :: core2) ++ rest by rw [List.cons_append]]
  rw [List.reverse_append]
  rw [dropWhile_append_all jsWsChar _ _ (fun c hc => h2 c (List.mem_reverse.mp hc))]
  rw [hc0, List.reverse_append]
  rw [show ([']'] : List Char).reverse = [']'] by rfl]
  rw [show ([']'] : List Char) ++ c0.reverse = ']' :: c0.reverse by
    rw [List.singleton_append]]
  rw [dropWhile_eq_self_of_head jsWsChar (']' :: c0.reverse) (by
    intro c hc
    simp only [List.head?_cons, Option.some.injEq] at hc
    subst hc
    decide)]
  rw [show (']' :: c0.reverse) = ([']'] ++ c0.reverse) by rw [List.singleton_append]]
  rw [List.reverse_append, List.reverse_reverse]
  rw [show ([']'] : List Char).reverse = [']'] by rfl]

/-- The list-mode normalizer recovers the parsed strings from every text that
`JSON.parse` reads as an array of plain strings: the trimmed text is exactly
the parser's bracketed core, the quote repair does nothing to it, the parse of
the core succeeds with the same strings, and trimming and filtering the
entries is the identity. -/
lemma normalizeToList_of_parse (t : String) (l : List String)
    (hp : ∀ s ∈ l, plainEntry s = true)
    (hparse : jsonParse t = some (Json.arr (l.map Json.str))) :
    normalizeToList t = l := by
  unfold jsonParse at hparse
  rcases hv : parseVal (t.data.length + 1) t.data with _ | ⟨v, rest⟩ <;> rw [hv] at hparse
  · simp at hparse
  · dsimp only at hparse
    by_cases hre : (skipWs rest).isEmpty = true
    case neg => rw [if_neg hre] at hparse; simp at hparse
    case pos =>
    rw [if_pos hre] at hparse
    injection hparse with hparse
    subst hparse
    obtain ⟨ws1, core, hcs, hws1, hhead, hlast, hlen, hsq, hrep⟩ :=
      pv_arr_str_frame t.data.length t.data l rest hv
    have hre2 : rest.dropWhile jsonWsChar = [] := by
      rwa [List.isEmpty_iff] at hre
    have hrest_ws : ∀ c ∈ rest, jsonWsChar c = true := List.dropWhile_eq_nil_iff.mp hre2
    obtain ⟨core2, hcore2⟩ := hhead
    have hne : t ≠ "" := by
      intro he
      have hd : t.data = [] := by rw [he]
      rw [hd, hcore2] at hcs
      simp at hcs
    have htrim : jsTrimL t.data = core := by
      rw [hcs]
      exact jsTrimL_outer ws1 core rest
        (fun c hc => jsonWs_is_jsWs c (hws1 c hc))
        (fun c hc => jsonWs_is_jsWs c (hrest_ws c hc))
        ⟨core2, hcore2⟩ hlast
    have hsq_no : squote ∉ core := by
      intro hmem
      obtain ⟨x, hx, hxc⟩ := hsq hmem
      have hall := (plainEntry_parts x (hp x hx)).2.1
      have := List.all_eq_true.mp hall squote hxc
      exact absurd this (by decide)
    have hparse_core : jsonParse (String.mk core) = some (Json.arr (l.map Json.str)) := by
      unfold jsonParse
      show (match parseVal (core.length + 1) core with
        | some (v, rest) => if (skipWs rest).isEmpty then some v else none
        | none => none) = some (Json.arr (l.map Json.str))
      have hr := hrep [] core.length (by omega)
      rw [List.append_nil core] at hr
      rw [hr]
      rfl
    have hdata : (jsTrim t).data = core := htrim
    unfold normalizeToList
    rw [if_neg hne]
    dsimp only
    rw [hdata]
    have hstart : startsWithL core ['['] = true := by
      rw [hcore2]
      simp [startsWithL]
    have hend : endsWithChar ']' core = true := by
      unfold endsWithChar
      rw [hlast]
      decide
    have hcond : (startsWithL core ['['] && endsWithChar ']' core ||
        startsWithL core ['['] && core.contains ']') = true := by
      rw [hstart, hend]
      simp
    rw [if_pos hcond]
    rw [repairListQuotes_id core hsq_no]
    rw [hparse_core]
    dsimp only
    rw [List.map_map]
    have hpt2 : ∀ s ∈ l,
        ((fun x => jsTrim (jsToStringF (t.data.length + 1) x)) ∘ Json.str) s = s :=
      fun s hs => jsTrim_plain s (hp s hs)
    rw [List.map_congr_left hpt2, List.map_id']
    refine List.filter_eq_self.mpr ?_
    intro a ha
    have := (plainEntry_parts a (hp a ha)).1
    simpa using this

/-! ## C8: round trip with truncation -/

/-- C8 counterexample: the well-formed JSON array text `[" a","b"]` of two
unique strings with `N = 2 ≥ count = 2` normalizes to `["a","b"]` — the
leading space is trimmed away, so the first `count` strings are not returned
unchanged. -/
theorem c8_counterexample :
    serializeJsonArray [" a", "b"] =
      String.mk ['[', '"', ' ', 'a', '"', ',', '"', 'b', '"', ']'] ∧
    ([" a", "b"] : List String).Nodup ∧
    generateList (serializeJsonArray [" a", "b"]) 2 = ["a", "b"] ∧
    (["a", "b"] : List String) ≠ [" a", "b"].take 2 := by
  refine ⟨by decide, by decide, by decide, by decide⟩

/-- C8 (amended): for every well-formed JSON array text of `N` unique strings
that are non-empty, contain no quote, backslash or control characters, and
carry no leading or trailing whitespace, with `N ≥ count`, list-mode
normalization followed by the resize step returns exactly the first `count`
strings unchanged.  The text is arbitrary: it may carry whitespace around and
between tokens and escape sequences inside the string literals, as long as
`JSON.parse` reads it as the array of those `N` strings. -/
theorem c8_roundtrip_truncation_amended (t : String) (l : List String) (count : Nat)
    (hnd : l.Nodup) (hc : count ≤ l.length) (hp : ∀ s ∈ l, plainEntry s = true)
    (hparse : jsonParse t = some (Json.arr (l.map Json.str))) :
    generateList t count = l.take count := by
  rw [generateList, normalizeToList_of_parse t l hp hparse]
  unfold resizeToCount
  dsimp only
  rw [if_neg (by omega)]

/-- C8 witness: the amended round trip at a concrete text with whitespace
around and between the tokens and a `\u0062` escape, read as `["a", "b"]`,
with `count = 2`. -/
theorem c8_witness :
    (["a", "b"] : List String).Nodup ∧ 2 ≤ (["a", "b"] : List String).length ∧
    (∀ s ∈ (["a", "b"] : List String), plainEntry s = true) ∧
    jsonParse (String.mk [' ', '[', ' ', '"', 'a', '"', ',', ' ', '"', bslash, 'u', '0',
      '0', '6', '2', '"', ' ', ']', ' ']) = some (Json.arr (["a", "b"].map Json.str)) ∧
    generateList (String.mk [' ', '[', ' ', '"', 'a', '"', ',', ' ', '"', bslash, 'u', '0',
      '0', '6', '2', '"', ' ', ']', ' ']) 2 = ["a", "b"].take 2 :=
  ⟨by decide, by decide, by decide, rfl,
    c8_roundtrip_truncation_amended
      (String.mk [' ', '[', ' ', '"', 'a', '"', ',', ' ', '"', bslash, 'u', '0',
        '0', '6', '2', '"', ' ', ']', ' '])
      ["a", "b"] 2 (by decide) (by decide) (by decide) rfl⟩

/-! ## C9: idempotence of re-normalization -/

/-- C9 counterexample: the pipeline output `["b", " a"]` (produced from the
raw text `b,' a'` at `count = 2`, with a leading space surviving the CSV
quote-strip) re-normalizes, via its JSON serialization, to `["b", "a"]` — not
to itself. -/
theorem c9_counterexample :
    generateList ("b," ++ sqString ++ " a" ++ sqString) 2 = ["b", " a"] ∧
    generateList (serializeJsonArray ["b", " a"]) 2 = ["b", "a"] ∧
    (["b", "a"] : List String) ≠ ["b", " a"] := by
  refine ⟨by decide, by decide, by decide⟩

/-- C9 (amended): a list of exactly `count` entries that are non-empty,
contain no quote, backslash or control characters, and carry no leading or
trailing whitespace re-normalizes (via its JSON serialization) to itself. -/
theorem c9_renormalize_amended (l : List String) (count : Nat)
    (hlen : l.length = count) (hp : ∀ s ∈ l, plainEntry s = true) :
    generateList (serializeJsonArray l) count = l := by
  rw [generateList, normalizeToList_serialize l hp]
  unfold resizeToCount
  dsimp only
  rw [if_neg (by omega)]
  rw [← hlen, List.take_length]

/-- C9 witness: the amended idempotence at a concrete two-string list. -/
theorem c9_witness :
    generateList (serializeJsonArray ["ef", "gh"]) 2 = ["ef", "gh"] :=
  c9_renormalize_amended ["ef", "gh"] 2 (by decide) (by decide)

end ProxyServer
